import Mathlib

/-!
# upguard-cli: pagination links and Swagger operation compilation

A shallow embedding of `upguard/myloader.go` (`UpguardAPIParser.ParseLinks`) and of
`swagger/swagger.go` (`getExt`, `getExtSlice`, `paramSchema`, `openapiOperation`),
followed by theorems about them.

Conventions of the embedding:

* Go strings are Lean `String`s; character-level work is done on `List Char`.
* A Go `interface{}` value is a `GoAny`.  A `map[string]interface{}` is the list of its
  entries *in the order in which a `range` loop happens to visit them*; keys are distinct,
  and indexing returns the first entry with the key (`nil` when there is none).
* A run-time panic (failed unchecked type assertion, nil dereference) is the outcome
  `Outcome.panicked`.
* Pointers that the host always initialises (`base`, `resp`, `resp.Links`, `op`, `path`,
  the parameters in a list) are taken as present.  The pointer `op.Responses` is nil for
  an operation that declares no responses; it is an `Option`.
* Functions defined outside the three source files are parameters: the Unicode tables of
  the Go runtime for `ParseLinks`, and the structure `Lib` for `openapiOperation`.
-/

namespace UpguardCli

/-! ## Dynamic values -/

/-- Go values of static type `interface{}` as produced by the JSON / YAML decoders:
`nil`, `bool`, a number (its numeric content is never inspected by the code), `string`,
`[]interface{}` and `map[string]interface{}`. -/
inductive GoAny where
  | nil
  | bool (b : Bool)
  | number (n : Int)
  | str (s : String)
  | slice (xs : List GoAny)
  | map (entries : List (String × GoAny))

/-- The Go test `v == nil` on an interface value. -/
def GoAny.isNil : GoAny → Bool
  | .nil => true
  | _ => false

/-- Indexing `m[key]` of a `map[string]interface{}`: the stored value, `nil` when absent. -/
def mapIndex (m : List (String × GoAny)) (key : String) : GoAny :=
  match m.lookup key with
  | some v => v
  | none => .nil

/-- Result of running Go code that may panic. -/
inductive Outcome (α : Type) where
  | returned (a : α)
  | panicked

/-- Go `error` values. -/
abbrev GoError := String

/-! ## `regexp` on the pattern of `rePageToken` -/

/-- The literal part of the pattern `page_token=(\d+)`. -/
def pageTokenLit : List Char := "page_token=".data

/-- Anchored match of `page_token=(\d+)` at the head of `s`: the text of the capture
group (the longest non-empty run of ASCII digits after the literal), if it matches. -/
def rePageToken.matchAt (s : List Char) : Option (List Char) :=
  if pageTokenLit.isPrefixOf s then
    let ds := (s.drop pageTokenLit.length).takeWhile Char.isDigit
    if ds.isEmpty then none else some ds
  else none

/-- Unanchored search on a character list: does the pattern match somewhere in `s`. -/
def rePageToken.matchChars : List Char → Bool
  | [] => false
  | c :: cs => (rePageToken.matchAt (c :: cs)).isSome || rePageToken.matchChars cs

/-- `rePageToken.MatchString(s)`. -/
def rePageToken.MatchString (s : String) : Bool :=
  rePageToken.matchChars s.data

/-- `regexp.extract`: the reference `name` or `{name}` at the head of the template text
that follows a `$`; returns the name and the number of characters it occupies.
`letterOrDigit` stands for `unicode.IsLetter(c) || unicode.IsDigit(c)`, whose tables are
part of the Go runtime. -/
def regexpExtract (letterOrDigit : Char → Bool) (str : List Char) :
    Option (List Char × Nat) :=
  let brace := str.head? == some '{'
  let body := if brace then str.tail else str
  let name := body.takeWhile (fun c => letterOrDigit c || c == '_')
  if name.isEmpty then none
  else if brace then
    (if (body.drop name.length).head? == some '}' then some (name, name.length + 2)
     else none)
  else some (name, name.length)

/-- The number loop of `regexp.extract`: `none` stands for `num = -1`. -/
def regexpNumLoop : Nat → List Char → Option Nat
  | num, [] => some num
  | num, c :: cs =>
    if c < '0' || '9' < c || num ≥ 100000000 then none
    else regexpNumLoop (num * 10 + (c.toNat - 48)) cs

/-- The submatch index denoted by a reference name (`none` for a named reference);
leading zeros are disallowed. -/
def regexpNum (name : List Char) : Option Nat :=
  match regexpNumLoop 0 name with
  | none => none
  | some n => if name.head? == some '0' && name.length > 1 then none else some n

/-- Text substituted for a reference: the pattern has the groups 0 (whole match) and 1
(the digits), both of which take part in every match, and no named group. -/
def regexpSubmatch (m0 m1 : List Char) (name : List Char) : List Char :=
  match regexpNum name with
  | some 0 => m0
  | some 1 => m1
  | _ => []

/-- `Regexp.expand` of a template against one match.  The first argument is the number of
template characters still to skip (those of a reference that has just been consumed). -/
def regexpExpand (letterOrDigit : Char → Bool) (m0 m1 : List Char) :
    Nat → List Char → List Char
  | _, [] => []
  | k + 1, _ :: cs => regexpExpand letterOrDigit m0 m1 k cs
  | 0, c :: cs =>
    if c = '$' then
      if cs.head? = some '$' then '$' :: regexpExpand letterOrDigit m0 m1 1 cs
      else
        match regexpExtract letterOrDigit cs with
        | none => '$' :: regexpExpand letterOrDigit m0 m1 0 cs
        | some (name, n) =>
          regexpSubmatch m0 m1 name ++ regexpExpand letterOrDigit m0 m1 n cs
    else c :: regexpExpand letterOrDigit m0 m1 0 cs

/-- The scanning loop of `Regexp.ReplaceAllString`: every leftmost, non-overlapping match
is replaced by the expanded template and the scan resumes right after the match.  The
first argument is the number of source characters still to skip (the rest of a match). -/
def rePageToken.replaceChars (letterOrDigit : Char → Bool) (repl : List Char) :
    Nat → List Char → List Char
  | _, [] => []
  | k + 1, _ :: cs => rePageToken.replaceChars letterOrDigit repl k cs
  | 0, c :: cs =>
    match rePageToken.matchAt (c :: cs) with
    | some ds =>
      regexpExpand letterOrDigit (pageTokenLit ++ ds) ds 0 repl ++
        rePageToken.replaceChars letterOrDigit repl (pageTokenLit.length + ds.length - 1) cs
    | none => c :: rePageToken.replaceChars letterOrDigit repl 0 cs

/-- `rePageToken.ReplaceAllString(src, repl)`. -/
def rePageToken.ReplaceAllString (letterOrDigit : Char → Bool) (src repl : String) : String :=
  ⟨rePageToken.replaceChars letterOrDigit repl.data 0 src.data⟩

/-! ## `UpguardAPIParser.ParseLinks` -/

/-- The type `cli.Link` (the fields the parser sets). -/
structure cli.Link where
  Rel : String
  URI : String
deriving DecidableEq

/-- The type `cli.Response`: `Links` maps a relation to its links (no links when the key is
absent) and `Body` is the decoded body. -/
structure cli.Response where
  Links : String → List cli.Link
  Body : GoAny

/-- The type `url.URL` (the fields read by this program). -/
structure URL where
  Path : String
  RawQuery : String

/-- Lines 28-42: the continuation link.  An absent or null `next_page_token` leaves the
links alone; a string token appends one `next` link; any other value makes the unchecked
assertion `b["next_page_token"].(string)` panic. -/
def ParseLinks.next (letterOrDigit : Char → Bool) (base : URL)
    (b : List (String × GoAny)) (links : String → List cli.Link) :
    Outcome (String → List cli.Link) :=
  if (mapIndex b "next_page_token").isNil then .returned links
  else
    match mapIndex b "next_page_token" with
    | .str t =>
      let rawQuery :=
        if rePageToken.MatchString base.RawQuery then
          rePageToken.ReplaceAllString letterOrDigit base.RawQuery ("page_token=" ++ t)
        else "page_token=" ++ t ++ "&" ++ base.RawQuery
      let rel := "next"
      .returned (Function.update links rel (links rel ++ [{ Rel := rel, URI := "?" ++ rawQuery }]))
    | _ => .panicked

/-- Lines 43-52: the `range` loop over the keys of `b`; the value of the first visited key
that holds a `[]interface{}` becomes the body. -/
def ParseLinks.unwrap (b : List (String × GoAny)) : List String → Option GoAny
  | [] => none
  | key :: rest =>
    match mapIndex b key with
    | .slice xs => some (.slice xs)
    | _ => ParseLinks.unwrap b rest

/-- `UpguardAPIParser.ParseLinks(base, resp)`: returns the error value and the response
as left by the call.  `noPaginate` is `viper.GetBool("rsh-no-paginate")`. -/
def ParseLinks (letterOrDigit : Char → Bool) (noPaginate : Bool) (base : URL)
    (resp : cli.Response) : Outcome (Option GoError × cli.Response) :=
  if !noPaginate then
    match resp.Body with
    | .map b =>
      if !(mapIndex b "total_results").isNil then
        match ParseLinks.next letterOrDigit base b resp.Links with
        | .panicked => .panicked
        | .returned links =>
          match ParseLinks.unwrap b (b.map Prod.fst) with
          | some body => .returned (none, { Links := links, Body := body })
          | none => .returned (none, { Links := links, Body := resp.Body })
      else .returned (none, resp)
    | _ => .returned (none, resp)
  else .returned (none, resp)

/-! ## Extension lookup (`swagger.go`) -/

/-- Change the CLI name for an operation or parameter. -/
def ExtName : String := "x-cli-name"

/-- Set additional command aliases for an operation. -/
def ExtAliases : String := "x-cli-aliases"

/-- Change the description of an operation or parameter. -/
def ExtDescription : String := "x-cli-description"

/-- Ignore a path, operation, or parameter. -/
def ExtIgnore : String := "x-cli-ignore"

/-- Create a hidden command for an operation. -/
def ExtHidden : String := "x-cli-hidden"

/-- A Go type `T` at which the generic helpers are instantiated: its zero value and the
checked type assertion `i.(T)` on an interface value (which fails on `nil`). -/
class GoType (T : Type) where
  zero : T
  assert : GoAny → Option T
  assert_nil : assert GoAny.nil = none

instance : GoType Bool where
  zero := false
  assert := fun i => match i with
    | .bool b => some b
    | _ => none
  assert_nil := rfl

instance : GoType String where
  zero := ""
  assert := fun i => match i with
    | .str s => some s
    | _ => none
  assert_nil := rfl

/-- An extension bag `map[string]any`; `none` is the nil map. -/
abbrev ExtBag := Option (List (String × GoAny))

/-- `getExt(v, key, def)`: an extension converted to some type, with the given default
returned if the extension is not found or cannot be cast to that type. -/
def getExt {T : Type} [GoType T] (v : ExtBag) (key : String) (dflt : T) : T :=
  match v with
  | some m =>
    let i := mapIndex m key
    if !i.isNil then
      match (GoType.assert i : Option T) with
      | some t => t
      | none => dflt
    else dflt
  | none => dflt

/-- One iteration of the loop of `getExtSlice`: `n[i] = si` when `s[i].(T)` succeeds. -/
def getExtSlice.step {T : Type} [GoType T] (s : List GoAny) (n : List T) (i : Nat) : List T :=
  match (GoType.assert (s.getD i .nil) : Option T) with
  | some si => n.set i si
  | none => n

/-- `getExtSlice(v, key, def)`: for a non-empty `[]any` the loop
`for i := 0; i < len(s); i++` runs over `n := make([]T, len(s))`. -/
def getExtSlice {T : Type} [GoType T] (v : ExtBag) (key : String) (dflt : List T) : List T :=
  match v with
  | some m =>
    let i := mapIndex m key
    if !i.isNil then
      match i with
      | .slice s =>
        if s.length > 0 then
          (List.range s.length).foldl (getExtSlice.step s) (List.replicate s.length GoType.zero)
        else dflt
      | _ => dflt
    else dflt
  | none => dflt

/-! ## The document model read by `openapiOperation` -/

mutual
/-- The type `base.Schema` (the fields read by this program): `Type`, `Items`, `Default`,
`Example`. -/
inductive Schema where
  | mk (types : List String) (items : Option DynamicItems) (dflt : GoAny) (exampleVal : GoAny)
/-- The type `base.DynamicValue[*SchemaProxy, bool]` of `Schema.Items`: `A` when `IsA()`
holds (a single item schema), `B` otherwise. -/
inductive DynamicItems where
  | A (proxy : SchemaProxy)
  | B (flag : Bool)
/-- The type `base.SchemaProxy`, given by what `Schema()` returns: the built schema, or
nil when the schema cannot be built (for instance an unresolvable reference). -/
inductive SchemaProxy where
  | mk (built : Option Schema)
end

/-- The field `Type` of a schema. -/
def Schema.Type_ : Schema → List String
  | .mk types _ _ _ => types

/-- The field `Items` of a schema (`none` is the nil pointer). -/
def Schema.Items : Schema → Option DynamicItems
  | .mk _ items _ _ => items

/-- The field `Default` of a schema. -/
def Schema.Default : Schema → GoAny
  | .mk _ _ dflt _ => dflt

/-- The field `Example` of a schema. -/
def Schema.Example : Schema → GoAny
  | .mk _ _ _ exampleVal => exampleVal

/-- The method `SchemaProxy.Schema()`. -/
def SchemaProxy.Schema : SchemaProxy → Option Schema
  | .mk built => built

/-- The type `v2.Parameter` (the fields read by this program). -/
structure v2.Parameter where
  Name : String
  In : String
  Description : String
  Schema : Option SchemaProxy
  Extensions : ExtBag

/-- The type `v2.Response`; `Headers` lists the keys of the header map. -/
structure v2.Response where
  Description : String
  Schema : Option SchemaProxy
  Headers : List String
  Extensions : ExtBag

/-- The type `v2.Operation`.  `Responses` is the pointer `op.Responses`: `none` is the nil
pointer of an operation that declares no responses, and `some codes` gives the map
`op.Responses.Codes` as the list of its entries in iteration order (a value may be a nil
pointer). -/
structure v2.Operation where
  Tags : List String
  Summary : String
  Description : String
  OperationId : String
  Parameters : List v2.Parameter
  Responses : Option (List (String × Option v2.Response))
  Extensions : ExtBag

/-- The type `v2.PathItem` (the fields read by `openapiOperation`). -/
structure v2.PathItem where
  Parameters : List v2.Parameter
  Extensions : ExtBag

/-- The parameter styles of `cli`. -/
inductive cli.Style where
  | StyleSimple
  | StyleForm
deriving DecidableEq

/-- The type `cli.Param`. -/
structure cli.Param where
  Type_ : String
  Name : String
  DisplayName : String
  Description : String
  Style : cli.Style
  Default : GoAny
  Example : GoAny

/-- The type `cli.Operation`. -/
structure cli.Operation where
  Name : String
  Group : String
  Aliases : List String
  Short : String
  Long : String
  Method : String
  URITemplate : String
  PathParams : List cli.Param
  QueryParams : List cli.Param
  HeaderParams : List cli.Param
  BodyMediaType : String
  Examples : List String
  Hidden : Bool
  Deprecated : String

/-- The rendering modes of `renderSchema`. -/
inductive schemaMode where
  | modeRead
  | modeWrite

/-- Functions that `openapiOperation` calls and that are defined outside the three source
files: `casing.Kebab`, `slug.Make`, `cli.Param.OptionName`, `URL.String`,
`url.PathUnescape` (`none` when it returns an error) and this package's `renderSchema`
(whose first argument may be a nil pointer). -/
structure Lib where
  Kebab : String → String
  slugMake : String → String
  OptionName : cli.Param → String
  urlString : URL → String
  PathUnescape : String → Option String
  renderSchema : Option Schema → String → schemaMode → String

/-- `strings.Trim(s, cutset)`: `s` without the leading and trailing characters that occur
in `cutset`. -/
def stringsTrim (s cutset : String) : String :=
  ⟨(s.data.dropWhile (fun c => cutset.data.contains c)).rdropWhile
    (fun c => cutset.data.contains c)⟩

/-- `strings.Join(elems, sep)`. -/
def stringsJoin (elems : List String) (sep : String) : String :=
  sep.intercalate elems

/-- The comparison `a < b` of Go strings on their characters: byte-wise lexicographic,
which on UTF-8 text is the lexicographic order of the code points. -/
def charsLess : List Char → List Char → Bool
  | [], [] => false
  | [], _ :: _ => true
  | _ :: _, [] => false
  | a :: as, b :: bs =>
    if a.toNat < b.toNat then true
    else if b.toNat < a.toNat then false
    else charsLess as bs

/-- The comparison `a < b` of Go strings. -/
def stringLess (a b : String) : Bool :=
  charsLess a.data b.data

/-- `sort.Strings`: ascending order of `<`. -/
def sortStrings (xs : List String) : List String :=
  xs.insertionSort (fun a b => stringLess b a = false)

/-! ## `paramSchema` and `openapiOperation` -/

/-- `paramSchema(p, s)`: a rendered schema line for a parameter, falling back to the
parameter type information when no schema is available. -/
def paramSchema (lib : Lib) (p : cli.Param) (s : Option Schema) : String :=
  match s with
  | some _ => lib.renderSchema s "  " .modeWrite
  | none => "(" ++ p.Type_ ++ "): " ++ p.Description

/-- Lines 115-125: operation parameters first, each marked in `seen`; then the path
parameters whose name is not marked. -/
def combineParams (opParams pathParams : List v2.Parameter) : List v2.Parameter :=
  let st := opParams.foldl
    (fun (st : List v2.Parameter × (String → Bool)) p =>
      (st.1 ++ [p], Function.update st.2 p.Name true))
    ([], fun _ => false)
  pathParams.foldl (fun combined p => if !(st.2 p.Name) then combined ++ [p] else combined) st.1

/-- Lines 132-156: the values `typ`, `schema`, `def` and `example` of one parameter.  The
item schema `s.Items.A.Schema()` is dereferenced without a nil check. -/
def parameterType (p : v2.Parameter) : Outcome (String × Option Schema × GoAny × GoAny) :=
  match p.Schema with
  | none => .returned ("string", none, .nil, .nil)
  | some proxy =>
    match proxy.Schema with
    | none => .returned ("string", none, .nil, .nil)
    | some s =>
      let typ := if s.Type_.length > 0 then s.Type_.headD "" else "string"
      if typ = "array" then
        match s.Items with
        | some (.A a) =>
          match a.Schema with
          | none => .panicked
          | some items =>
            if items.Type_.length > 0 then
              .returned (typ ++ "[" ++ items.Type_.headD "" ++ "]", some s, s.Default, s.Example)
            else .returned (typ, some s, s.Default, s.Example)
        | _ => .returned (typ, some s, s.Default, s.Example)
      else .returned (typ, some s, s.Default, s.Example)

/-- The six slices filled by the parameter loop. -/
structure paramLists where
  pathParams : List cli.Param
  queryParams : List cli.Param
  headerParams : List cli.Param
  pathSchemas : List (Option Schema)
  querySchemas : List (Option Schema)
  headerSchemas : List (Option Schema)

/-- Lines 127-193: the loop over `combinedParams`. -/
def classifyParams : List v2.Parameter → paramLists → Outcome paramLists
  | [], acc => .returned acc
  | p :: rest, acc =>
    if getExt p.Extensions ExtIgnore false = true then classifyParams rest acc
    else
      match parameterType p with
      | .panicked => .panicked
      | .returned (typ, schema, dflt, exampleVal) =>
        let param : cli.Param :=
          { Type_ := typ
            Name := p.Name
            DisplayName := getExt p.Extensions ExtName ""
            Description := getExt p.Extensions ExtDescription p.Description
            Style := .StyleSimple
            Default := dflt
            Example := exampleVal }
        if p.In = "path" then
          classifyParams rest { acc with
            pathParams := acc.pathParams ++ [param], pathSchemas := acc.pathSchemas ++ [schema] }
        else if p.In = "query" then
          classifyParams rest { acc with
            queryParams := acc.queryParams ++ [param]
            querySchemas := acc.querySchemas ++ [schema] }
        else if p.In = "header" then
          classifyParams rest { acc with
            headerParams := acc.headerParams ++ [param]
            headerSchemas := acc.headerSchemas ++ [schema] }
        else classifyParams rest acc

/-- Lines 195-208: the name and the aliases of the operation. -/
def operationName (lib : Lib) (method : String) (uriTemplate : URL) (op : v2.Operation) :
    String × List String :=
  let aliases : List String := getExtSlice op.Extensions ExtAliases []
  let name := lib.Kebab op.OperationId
  let name :=
    if name = "" then lib.Kebab (method ++ "-" ++ stringsTrim uriTemplate.Path "/") else name
  let override : String := getExt op.Extensions ExtName ""
  if override ≠ "" then (override, aliases)
  else
    let oldName := lib.slugMake op.OperationId
    if oldName ≠ "" ∧ oldName ≠ name then (name, aliases ++ [oldName]) else (name, aliases)

/-- The loops of lines 215-217 and 223-228: one line per parameter, `schemas[i]` being
the schema of `params[i]` (the two slices are always appended to together). -/
def schemaLines (lib : Lib) (lead : String) :
    List cli.Param → List (Option Schema) → String → String
  | p :: ps, s :: ss, desc =>
    schemaLines lib lead ps ss
      (desc ++ lead ++ lib.OptionName p ++ ": " ++ paramSchema lib p s ++ "\n")
  | _, _, desc => desc

/-- Lines 213-230: the argument and option schema blocks. -/
def describeParams (lib : Lib) (ps : paramLists) (desc : String) : String :=
  let desc :=
    if ps.pathParams.length > 0 then
      schemaLines lib "  " ps.pathParams ps.pathSchemas
        (desc ++ "\n## Argument Schema:\n```schema\n\x7b\n") ++ "\x7d\n```\n"
    else desc
  if ps.queryParams.length > 0 ∨ ps.headerParams.length > 0 then
    schemaLines lib "  --" ps.headerParams ps.headerSchemas
      (schemaLines lib "  --" ps.queryParams ps.querySchemas
        (desc ++ "\n## Option Schema:\n```schema\n\x7b\n")) ++ "\x7d\n```\n"
  else desc

/-- The local type `schemaEntry`. -/
structure schemaEntry where
  code : String
  ct : String
  schema : Option Schema

/-- The key type `[32]byte` of `schemaMap`. -/
abbrev Hash32 := List Nat

/-- The value `[32]byte{}`. -/
def zeroHash : Hash32 := List.replicate 32 0

/-- Indexing `respMap[code]`: nil when the code is absent or maps to a nil pointer. -/
def respMapIndex (respMap : List (String × Option v2.Response)) (code : String) :
    Option v2.Response :=
  match respMap.lookup code with
  | some r => r
  | none => none

/-- Indexing `schemaMap[hash]` (the nil slice when absent). -/
def schemaMapIndex (m : List (Hash32 × List schemaEntry)) (hash : Hash32) : List schemaEntry :=
  match m.lookup hash with
  | some es => es
  | none => []

/-- The statement `schemaMap[hash] = append(schemaMap[hash], e)`. -/
def schemaMapAppend (m : List (Hash32 × List schemaEntry)) (hash : Hash32) (e : schemaEntry) :
    List (Hash32 × List schemaEntry) :=
  match m with
  | [] => [(hash, [e])]
  | (k, es) :: rest =>
    if k = hash then (k, es ++ [e]) :: rest else (k, es) :: schemaMapAppend rest hash e

/-- Lines 250-267: every code with a response is filed under `hash := [32]byte{}`; the
fields `ct` and `schema` of the entry keep their zero values. -/
def buildSchemaMap (respMap : List (String × Option v2.Response)) :
    List String → List (Hash32 × List schemaEntry) → List (Hash32 × List schemaEntry)
  | [], m => m
  | code :: rest, m =>
    match respMapIndex respMap code with
    | none => buildSchemaMap respMap rest m
    | some _ =>
      let hash := zeroHash
      buildSchemaMap respMap rest (schemaMapAppend m hash { code := code, ct := "", schema := none })

/-- The code `schemaMap[k][0].code` used to order the keys. -/
def firstCode (m : List (Hash32 × List schemaEntry)) (k : Hash32) : String :=
  match schemaMapIndex m k with
  | e :: _ => e.code
  | [] => ""

/-- Lines 269-272: the keys of `schemaMap`, sorted by the first code of their entries
(these first codes are pairwise distinct, so the result does not depend on the order in
which `maps.Keys` lists them). -/
def sortedSchemaKeys (m : List (Hash32 × List schemaEntry)) : List Hash32 :=
  (m.map Prod.fst).insertionSort
    (fun a b => stringLess (firstCode m b) (firstCode m a) = false)

/-- Lines 275-318: the section of one key of `schemaMap`.  Every key holds at least one
entry, whose code has a response. -/
def responseSection (lib : Lib) (respMap : List (String × Option v2.Response))
    (m : List (Hash32 × List schemaEntry)) (s : Hash32) (desc : String) : String :=
  let entries := schemaMapIndex m s
  let entry0 : schemaEntry := entries.headD { code := "", ct := "", schema := none }
  let resp : Option v2.Response :=
    if entries.length = 1 then respMapIndex respMap entry0.code else none
  let codeNums := entries.map (fun v => v.code)
  let hasSchema : Bool := s != zeroHash
  let ct := if hasSchema then " (" ++ entry0.ct ++ ")" else ""
  let desc :=
    match resp with
    | some resp =>
      let desc := desc ++ "\n## Response " ++ entry0.code ++ ct ++ "\n"
      let respDesc : String := getExt resp.Extensions ExtDescription resp.Description
      if respDesc ≠ "" then desc ++ "\n" ++ respDesc ++ "\n"
      else if !hasSchema then desc ++ "\nResponse has no body\n"
      else desc
    | none =>
      let desc := desc ++ "\n## Responses " ++ stringsJoin codeNums "/" ++ ct ++ "\n"
      if !hasSchema then desc ++ "\nResponse has no body\n" else desc
  let headers : List String :=
    match respMapIndex respMap entry0.code with
    | some r => r.Headers
    | none => []
  let desc :=
    if headers.length > 0 then
      desc ++ "\nHeaders: " ++ stringsJoin (sortStrings headers) ", " ++ "\n"
    else desc
  if hasSchema then
    desc ++ "\n```schema\n" ++ lib.renderSchema entry0.schema "" .modeRead ++ "\n```\n"
  else desc

/-- Lines 235-319: the response sections appended to the description.  Line 237 reads
`op.Responses.Codes` through the pointer `op.Responses` without a nil check, so a nil
`op.Responses` panics. -/
def describeResponses (lib : Lib) (op : v2.Operation) (desc : String) : Outcome String :=
  match op.Responses with
  | none => .panicked
  | some respMap =>
    let codes := sortStrings (respMap.map Prod.fst)
    let schemaMap := buildSchemaMap respMap codes []
    .returned
      ((sortedSchemaKeys schemaMap).foldl
        (fun desc s => responseSection lib respMap schemaMap s desc) desc)

/-- `openapiOperation(cmd, method, uriTemplate, path, op)`; the argument `cmd` is not
used by the function. -/
def openapiOperation (lib : Lib) (method : String) (uriTemplate : URL) (path : v2.PathItem)
    (op : v2.Operation) : Outcome cli.Operation :=
  let combinedParams := combineParams op.Parameters path.Parameters
  match classifyParams combinedParams
      { pathParams := [], queryParams := [], headerParams := []
        pathSchemas := [], querySchemas := [], headerSchemas := [] } with
  | .panicked => .panicked
  | .returned ps =>
    let naming := operationName lib method uriTemplate op
    let desc : String := getExt op.Extensions ExtDescription op.Description
    let hidden : Bool := getExt op.Extensions ExtHidden false
    let desc := describeParams lib ps desc
    let mediaType := ""
    let examples : List String := []
    match describeResponses lib op desc with
    | .panicked => .panicked
    | .returned desc =>
      let tmpl :=
        match lib.PathUnescape (lib.urlString uriTemplate) with
        | some s => s
        | none => lib.urlString uriTemplate
      let group := if op.Tags.length > 0 then op.Tags.headD "" else ""
      let dep := ""
      .returned
        { Name := naming.1
          Group := group
          Aliases := naming.2
          Short := op.Summary
          Long := stringsTrim desc "\n" ++ "\n"
          Method := method
          URITemplate := tmpl
          PathParams := ps.pathParams
          QueryParams := ps.queryParams
          HeaderParams := ps.headerParams
          BodyMediaType := mediaType
          Examples := examples
          Hidden := hidden
          Deprecated := dep }

/-! ## Specification-level notions used in the statements -/

/-- A character list contains a fragment `page_token=<digits>`: the literal `page_token=`
immediately followed by at least one decimal digit. -/
def ContainsFragment (s : List Char) : Prop :=
  ∃ d : Char, d.isDigit = true ∧ (pageTokenLit ++ [d]) <:+: s

/-- The number of `page_token` parameters of a query: the number of positions at which the
text `page_token=` occurs. -/
def countPageToken : List Char → Nat
  | [] => 0
  | c :: cs => (if pageTokenLit.isPrefixOf (c :: cs) then 1 else 0) + countPageToken cs

/-- The relation between a query and its rewriting, as the specification words it: in the
first fragment `page_token=<digits>` the digits are replaced by the new token `t`, the text
before it is unchanged, and the text after it is rewritten in the same way; text without
such a fragment is unchanged. -/
inductive DigitsReplaced (t : List Char) : List Char → List Char → Prop where
  | unchanged (s : List Char) : ¬ ContainsFragment s → DigitsReplaced t s s
  | fragment (pre ds post post' : List Char) :
      ¬ ContainsFragment pre → ds ≠ [] → (∀ c ∈ ds, c.isDigit = true) →
      (∀ c, post.head? = some c → c.isDigit = false) →
      DigitsReplaced t post post' →
      DigitsReplaced t (pre ++ pageTokenLit ++ ds ++ post) (pre ++ pageTokenLit ++ t ++ post')

/-- A query contains a fragment `page_token=<digits>`. -/
def HasPageToken (q : String) : Prop :=
  ContainsFragment q.data

/-- The body left by the unwrap step for a mapping `b` whose original body is `body`. -/
def unwrappedBody (b : List (String × GoAny)) (body : GoAny) : GoAny :=
  match ParseLinks.unwrap b (b.map Prod.fst) with
  | some v => v
  | none => body

/-- The conversion applied by `getExtSlice` to one element: the element itself when it has
type `T`, the zero value of `T` otherwise. -/
def assertOrZero {T : Type} [GoType T] (si : GoAny) : T :=
  match (GoType.assert si : Option T) with
  | some t => t
  | none => GoType.zero

/-- The parameters that the loop of `openapiOperation` processes can all be typed: none of
those that are not ignored has an array schema whose item schema fails to build. -/
def ParamsResolved (params : List v2.Parameter) : Prop :=
  ∀ p ∈ params, getExt p.Extensions ExtIgnore false = false →
    ∃ r, parameterType p = .returned r

/-- Lines 197-200: the canonical name, before any override is looked at. -/
def canonicalName (lib : Lib) (method : String) (uriTemplate : URL) (op : v2.Operation) :
    String :=
  if lib.Kebab op.OperationId = "" then
    lib.Kebab (method ++ "-" ++ stringsTrim uriTemplate.Path "/")
  else lib.Kebab op.OperationId

/-- The parameters of a list that are not flagged `x-cli-ignore` and whose location is
`loc`, in their order. -/
def keptIn (loc : String) (params : List v2.Parameter) : List v2.Parameter :=
  params.filter (fun p => !(getExt p.Extensions ExtIgnore false) && decide (p.In = loc))

/-- The state of the six slices before the parameter loop. -/
def noParams : paramLists where
  pathParams := []
  queryParams := []
  headerParams := []
  pathSchemas := []
  querySchemas := []
  headerSchemas := []

/-- The three locations under which `openapiOperation` classifies parameters. -/
inductive ParamLocation where
  | path
  | query
  | header

/-- The value of the field `In` for a location. -/
def ParamLocation.text : ParamLocation → String
  | .path => "path"
  | .query => "query"
  | .header => "header"

/-- The names of the descriptors in the output sequence of a location. -/
def namesAt (d : cli.Operation) : ParamLocation → List String
  | .path => d.PathParams.map (fun x => x.Name)
  | .query => d.QueryParams.map (fun x => x.Name)
  | .header => d.HeaderParams.map (fun x => x.Name)

/-! ## A concrete library instance and sample documents -/

/-- Modelled from the spec: the words of a hyphen-case conversion (`casing.Kebab`, which is
not part of the source files).  A word is a maximal run of ASCII letters and digits, split
further where a lower-case letter is followed by an upper-case one; every other character
separates words. -/
def hyphenWords : List Char → List (List Char)
  | [] => []
  | c :: cs =>
    if !c.isAlphanum then [] :: hyphenWords cs
    else
      match hyphenWords cs with
      | [] => [[c]]
      | w :: ws =>
        if c.isLower && (w.head?.map Char.isUpper).getD false then [c] :: w :: ws
        else (c :: w) :: ws

/-- Modelled from the spec: "converted to hyphen-case" (`casing.Kebab`): the words of the
text, lower-cased and joined with `-`; `listUsers` becomes `list-users`. -/
def hyphenCase (s : String) : String :=
  "-".intercalate
    (((hyphenWords s.data).filter (fun w => !w.isEmpty)).map
      (fun w => String.mk (w.map Char.toLower)))

/-- Modelled from the spec: the "legacy slug-style name" (`slug.Make`, which is not part of
the source files): the maximal runs of ASCII letters and digits, lower-cased and joined
with `-`; `listUsers` becomes `listusers`. -/
def slugCase (s : String) : String :=
  "-".intercalate
    (((s.data.splitBy (fun a b => a.isAlphanum && b.isAlphanum)).filter
        (fun w => w.all Char.isAlphanum && !w.isEmpty)).map
      (fun w => String.mk (w.map Char.toLower)))

/-- Modelled from the spec: a concrete instance of the functions defined outside the
source files, on which examples are evaluated.  `OptionName` is the hyphen-case form of
the display name, or of the name when there is no display name; URLs are rendered as path
and query and contain no escapes; a schema is rendered as the list of its types. -/
def sampleLib : Lib where
  Kebab := hyphenCase
  slugMake := slugCase
  OptionName := fun p => hyphenCase (if p.DisplayName ≠ "" then p.DisplayName else p.Name)
  urlString := fun u => if u.RawQuery = "" then u.Path else u.Path ++ "?" ++ u.RawQuery
  PathUnescape := fun s => some s
  renderSchema := fun s indent _ =>
    match s with
    | some sch => indent ++ "(" ++ stringsJoin sch.Type_ "|" ++ ")"
    | none => indent ++ "<nil>"

/-- An operation with the given identifier and nothing else declared. -/
def sampleOperation (operationId : String) : v2.Operation where
  Tags := ["users"]
  Summary := "Users"
  Description := "List users"
  OperationId := operationId
  Parameters := []
  Responses := some []
  Extensions := none

/-- An operation declaring the responses `404` (a string) and `200` (an array of strings),
listed as a map may list them. -/
def twoResponses : v2.Operation where
  Tags := ["users"]
  Summary := "Users"
  Description := "List users"
  OperationId := "listUsers"
  Parameters := []
  Responses := some
    [("404",
        some { Description := "Not found"
               Schema := some (.mk (some (.mk ["string"] none .nil .nil)))
               Headers := [], Extensions := none }),
      ("200",
        some { Description := "OK"
               Schema := some (.mk (some (.mk ["array"]
                 (some (.A (.mk (some (.mk ["string"] none .nil .nil))))) .nil .nil)))
               Headers := [], Extensions := none })]
  Extensions := none

/-- A query parameter whose schema has type `array` and the given `items`. -/
def arrayParameter (items : Option DynamicItems) : v2.Parameter where
  Name := "ids"
  In := "query"
  Description := "identifiers"
  Schema := some (.mk (some (.mk ["array"] items .nil .nil)))
  Extensions := none

/-- An operation whose only parameter is `arrayParameter items`. -/
def arrayOperation (items : Option DynamicItems) : v2.Operation where
  Tags := []
  Summary := "Users"
  Description := "List users"
  OperationId := "listUsers"
  Parameters := [arrayParameter items]
  Responses := some []
  Extensions := none

/-- A path item without parameters. -/
def emptyPath : v2.PathItem where
  Parameters := []
  Extensions := none

/-- An operation with the given identifier and extension bag, and nothing else declared. -/
def extendedOperation (operationId : String) (extensions : ExtBag) : v2.Operation where
  Tags := ["users"]
  Summary := "Users"
  Description := "List users"
  OperationId := operationId
  Parameters := []
  Responses := some []
  Extensions := extensions

/-- A parameter without schema, with the given name, location and extension bag. -/
def plainParameter (name location : String) (extensions : ExtBag) : v2.Parameter where
  Name := name
  In := location
  Description := ""
  Schema := none
  Extensions := extensions

/-- An operation with the given parameters and nothing else declared. -/
def parameterOperation (params : List v2.Parameter) : v2.Operation where
  Tags := []
  Summary := "Users"
  Description := "List users"
  OperationId := "listUsers"
  Parameters := params
  Responses := some []
  Extensions := none

/-! # Theorems -/

/-! ## The pattern `page_token=(\d+)` -/

theorem matchAt_isSome_iff (s : List Char) :
    (rePageToken.matchAt s).isSome = true ↔
      ∃ d : Char, d.isDigit = true ∧ (pageTokenLit ++ [d]) <+: s := by
  unfold rePageToken.matchAt
  by_cases hp : pageTokenLit.isPrefixOf s = true
  · rw [if_pos hp]
    rw [List.isPrefixOf_iff_prefix] at hp
    obtain ⟨r, rfl⟩ := hp
    rw [List.drop_left]
    cases r with
    | nil =>
      simp only [List.takeWhile_nil, List.isEmpty_nil, if_true, Option.isSome_none,
        Bool.false_eq_true, false_iff, not_exists, not_and]
      intro x _ hpre
      have := hpre.length_le
      simp at this
    | cons d post =>
      by_cases hd : d.isDigit = true
      · have : (pageTokenLit ++ [d]) <+: (pageTokenLit ++ d :: post) := ⟨post, by simp⟩
        simp [List.takeWhile_cons, hd]
      · simp [List.takeWhile_cons, hd]
  · rw [if_neg hp]
    simp
    intro d _ hpre
    apply hp
    rw [List.isPrefixOf_iff_prefix]
    exact (List.prefix_append _ _).trans hpre

theorem matchChars_iff (s : List Char) :
    rePageToken.matchChars s = true ↔
      ∃ d : Char, d.isDigit = true ∧ (pageTokenLit ++ [d]) <:+: s := by
  induction s with
  | nil =>
    simp [rePageToken.matchChars, pageTokenLit]
  | cons c cs ih =>
    simp only [rePageToken.matchChars, Bool.or_eq_true, matchAt_isSome_iff, ih,
      List.infix_cons_iff]
    constructor
    · rintro (⟨d, hd, h⟩ | ⟨d, hd, h⟩)
      · exact ⟨d, hd, Or.inl h⟩
      · exact ⟨d, hd, Or.inr h⟩
    · rintro ⟨d, hd, h | h⟩
      · exact Or.inl ⟨d, hd, h⟩
      · exact Or.inr ⟨d, hd, h⟩

theorem MatchString_iff (q : String) :
    rePageToken.MatchString q = true ↔ HasPageToken q :=
  matchChars_iff q.data

/-! ## `ParseLinks` -/

/-- C1. Forward step: for a mapping body with a non-null `total_results` and a string
`next_page_token` equal to `t`, and a raw query `q` without a `page_token=<digits>`
fragment, `ParseLinks` (pagination enabled) returns no error and appends exactly one link
to the relation `next`, with `Rel` `next` and `URI` `?page_token=` ++ t ++ `&` ++ q; the
body is the one left by the unwrap step. -/
theorem ParseLinks_forward (letterOrDigit : Char → Bool) (base : URL) (resp : cli.Response)
    (b : List (String × GoAny)) (t : String)
    (hbody : resp.Body = .map b)
    (htotal : (mapIndex b "total_results").isNil = false)
    (htoken : mapIndex b "next_page_token" = .str t)
    (hquery : ¬ HasPageToken base.RawQuery) :
    ParseLinks letterOrDigit false base resp =
      .returned (none,
        { Links := Function.update resp.Links "next"
            (resp.Links "next" ++
              [{ Rel := "next", URI := "?page_token=" ++ t ++ "&" ++ base.RawQuery }])
          Body := unwrappedBody b resp.Body }) := by
  have hm : rePageToken.MatchString base.RawQuery = false := by
    rw [← Bool.not_eq_true, MatchString_iff]
    exact hquery
  have huri : "?" ++ ("page_token=" ++ t ++ "&" ++ base.RawQuery) =
      "?page_token=" ++ t ++ "&" ++ base.RawQuery := by
    simp only [← String.append_assoc]
    rfl
  have hstr : (GoAny.str t).isNil = false := rfl
  simp only [ParseLinks, hbody, htotal, ParseLinks.next, htoken, hstr, hm, unwrappedBody]
  cases ParseLinks.unwrap b (b.map Prod.fst) <;> simp <;> rw [huri]

/-- Witness of C1: body `{"total_results":5,"next_page_token":"10","items":[1,2,3]}` with
query `foo=bar` gives the link `?page_token=10&foo=bar` and the body `[1,2,3]`. -/
theorem ParseLinks_forward_witness :
    ParseLinks Char.isAlphanum false { Path := "/domains", RawQuery := "foo=bar" }
        { Links := fun _ => []
          Body := .map [("total_results", .number 5), ("next_page_token", .str "10"),
            ("items", .slice [.number 1, .number 2, .number 3])] } =
      .returned (none,
        { Links := Function.update (fun _ => []) "next"
            [{ Rel := "next", URI := "?page_token=10&foo=bar" }]
          Body := .slice [.number 1, .number 2, .number 3] }) :=
  ParseLinks_forward Char.isAlphanum { Path := "/domains", RawQuery := "foo=bar" }
    { Links := fun _ => []
      Body := .map [("total_results", .number 5), ("next_page_token", .str "10"),
        ("items", .slice [.number 1, .number 2, .number 3])] }
    _ "10" rfl rfl rfl (fun h => by
      have := (MatchString_iff "foo=bar").mpr h
      revert this
      decide)

/-! ## Rewriting of the query by `ReplaceAllString` -/

theorem regexpExpand_literal (letterOrDigit : Char → Bool) (m0 m1 tmpl : List Char)
    (h : ∀ c ∈ tmpl, c ≠ '$') : regexpExpand letterOrDigit m0 m1 0 tmpl = tmpl := by
  induction tmpl with
  | nil => rfl
  | cons c cs ih =>
    have hc : c ≠ '$' := h c (List.mem_cons_self _ _)
    rw [regexpExpand, if_neg hc, ih (fun x hx => h x (List.mem_cons_of_mem _ hx))]

theorem replaceChars_skip (letterOrDigit : Char → Bool) (repl : List Char) (k : Nat)
    (s : List Char) :
    rePageToken.replaceChars letterOrDigit repl k s =
      rePageToken.replaceChars letterOrDigit repl 0 (s.drop k) := by
  induction k generalizing s with
  | zero => rfl
  | succ k ih =>
    cases s with
    | nil => rfl
    | cons c cs => rw [rePageToken.replaceChars, ih, List.drop_succ_cons]

theorem matchAt_eq_some (s ds : List Char) (h : rePageToken.matchAt s = some ds) :
    ∃ post, s = pageTokenLit ++ ds ++ post ∧ ds ≠ [] ∧ (∀ c ∈ ds, c.isDigit = true) ∧
      (∀ c, post.head? = some c → c.isDigit = false) := by
  unfold rePageToken.matchAt at h
  by_cases hp : pageTokenLit.isPrefixOf s = true
  · rw [if_pos hp] at h
    rw [List.isPrefixOf_iff_prefix] at hp
    obtain ⟨r, rfl⟩ := hp
    rw [List.drop_left] at h
    by_cases he : (r.takeWhile Char.isDigit).isEmpty = true
    · simp [he] at h
    · simp only [he] at h
      simp only [Bool.false_eq_true, if_false, Option.some.injEq] at h
      subst h
      refine ⟨r.dropWhile Char.isDigit, ?_, ?_, ?_, ?_⟩
      · rw [List.append_assoc, List.takeWhile_append_dropWhile]
      · intro h0
        rw [h0] at he
        exact he rfl
      · intro c hc
        exact List.mem_takeWhile_imp hc
      · intro c hc
        have := List.head?_dropWhile_not Char.isDigit r
        rw [hc] at this
        simpa using this
  · rw [if_neg hp] at h
    cases h

theorem replaceChars_match (letterOrDigit : Char → Bool) (repl ds post : List Char)
    (h : rePageToken.matchAt (pageTokenLit ++ ds ++ post) = some ds) :
    rePageToken.replaceChars letterOrDigit repl 0 (pageTokenLit ++ ds ++ post) =
      regexpExpand letterOrDigit (pageTokenLit ++ ds) ds 0 repl ++
        rePageToken.replaceChars letterOrDigit repl 0 post := by
  obtain ⟨c, cs, hcs⟩ : ∃ c cs, pageTokenLit ++ ds ++ post = c :: cs := ⟨'p', _, rfl⟩
  have hdrop : cs.drop (pageTokenLit.length + ds.length - 1) = post := by
    have h1 : (c :: cs).drop (pageTokenLit.length + ds.length) = post := by
      rw [← hcs, ← List.length_append, List.drop_left]
    have h2 : pageTokenLit.length + ds.length = (pageTokenLit.length + ds.length - 1) + 1 := by
      have : pageTokenLit.length = 11 := rfl
      omega
    rw [h2, List.drop_succ_cons] at h1
    exact h1
  rw [hcs] at h ⊢
  rw [rePageToken.replaceChars]
  simp only [h]
  rw [replaceChars_skip, hdrop]

theorem replaceChars_no_match (letterOrDigit : Char → Bool) (repl : List Char) (c : Char)
    (cs : List Char) (h : rePageToken.matchAt (c :: cs) = none) :
    rePageToken.replaceChars letterOrDigit repl 0 (c :: cs) =
      c :: rePageToken.replaceChars letterOrDigit repl 0 cs := by
  rw [rePageToken.replaceChars]
  simp only [h]

theorem containsFragment_cons (c : Char) (cs : List Char) :
    ContainsFragment (c :: cs) ↔
      (rePageToken.matchAt (c :: cs)).isSome = true ∨ ContainsFragment cs := by
  unfold ContainsFragment
  rw [matchAt_isSome_iff]
  simp only [List.infix_cons_iff]
  constructor
  · rintro ⟨d, hd, h | h⟩
    · exact Or.inl ⟨d, hd, h⟩
    · exact Or.inr ⟨d, hd, h⟩
  · rintro (⟨d, hd, h⟩ | ⟨d, hd, h⟩)
    · exact ⟨d, hd, Or.inl h⟩
    · exact ⟨d, hd, Or.inr h⟩

theorem replaceChars_unchanged (letterOrDigit : Char → Bool) (repl s : List Char)
    (h : ¬ ContainsFragment s) : rePageToken.replaceChars letterOrDigit repl 0 s = s := by
  induction s with
  | nil => rfl
  | cons c cs ih =>
    rw [containsFragment_cons, not_or] at h
    have hnone : rePageToken.matchAt (c :: cs) = none := by
      cases hm : rePageToken.matchAt (c :: cs) with
      | none => rfl
      | some ds => exact absurd (by rw [hm]; rfl) h.1
    rw [replaceChars_no_match _ _ _ _ hnone, ih h.2]

/-- The leftmost fragment of a text that contains one, and the effect of the replacement
on it. -/
theorem replaceChars_leftmost (letterOrDigit : Char → Bool) (repl s : List Char)
    (h : ContainsFragment s) :
    ∃ pre ds post, s = pre ++ pageTokenLit ++ ds ++ post ∧ ¬ ContainsFragment pre ∧
      ds ≠ [] ∧ (∀ c ∈ ds, c.isDigit = true) ∧
      (∀ c, post.head? = some c → c.isDigit = false) ∧
      rePageToken.replaceChars letterOrDigit repl 0 s =
        pre ++ regexpExpand letterOrDigit (pageTokenLit ++ ds) ds 0 repl ++
          rePageToken.replaceChars letterOrDigit repl 0 post := by
  induction s with
  | nil =>
    obtain ⟨d, _, hd⟩ := h
    have := hd.length_le
    simp at this
  | cons c cs ih =>
    cases hm : rePageToken.matchAt (c :: cs) with
    | some ds =>
      obtain ⟨post, hs, hne, hdig, hpost⟩ := matchAt_eq_some _ _ hm
      refine ⟨[], ds, post, by simpa using hs, ?_, hne, hdig, hpost, ?_⟩
      · rintro ⟨d, _, hd⟩
        have := hd.length_le
        simp at this
      · rw [hs] at hm ⊢
        rw [replaceChars_match _ _ _ _ hm]
        rfl
    | none =>
      rw [containsFragment_cons, hm] at h
      have hcs : ContainsFragment cs := by
        rcases h with h | h
        · cases h
        · exact h
      obtain ⟨pre, ds, post, hs, hpre, hne, hdig, hpost, hrepl⟩ := ih hcs
      refine ⟨c :: pre, ds, post, by rw [hs]; rfl, ?_, hne, hdig, hpost, ?_⟩
      · rw [containsFragment_cons, not_or]
        refine ⟨?_, hpre⟩
        rw [matchAt_isSome_iff]
        rintro ⟨d, hd, hp⟩
        have hsome : (rePageToken.matchAt (c :: cs)).isSome = true := by
          rw [matchAt_isSome_iff]
          refine ⟨d, hd, hp.trans ?_⟩
          rw [hs]
          exact ⟨pageTokenLit ++ ds ++ post, by simp⟩
        rw [hm] at hsome
        cases hsome
      · rw [replaceChars_no_match _ _ _ _ hm, hrepl]
        rfl

theorem replaceChars_digitsReplaced (letterOrDigit : Char → Bool) (t : List Char)
    (ht : ∀ c ∈ t, c.isDigit = true) (n : Nat) :
    ∀ s : List Char, s.length ≤ n →
      DigitsReplaced t s (rePageToken.replaceChars letterOrDigit (pageTokenLit ++ t) 0 s) := by
  have hlit : ∀ c ∈ pageTokenLit ++ t, c ≠ '$' := by
    intro c hc
    rcases List.mem_append.mp hc with h | h
    · have hall : ∀ x ∈ pageTokenLit, x ≠ '$' := by decide
      exact hall c h
    · intro hdollar
      have := ht c h
      rw [hdollar] at this
      revert this
      decide
  induction n with
  | zero =>
    intro s hs
    have : s = [] := List.length_eq_zero.mp (Nat.le_zero.mp hs)
    subst this
    exact DigitsReplaced.unchanged [] (by
      rintro ⟨d, _, hd⟩
      have := hd.length_le
      simp at this)
  | succ n ih =>
    intro s hs
    by_cases hc : ContainsFragment s
    · obtain ⟨pre, ds, post, hsplit, hpre, hne, hdig, hpost, hrepl⟩ :=
        replaceChars_leftmost letterOrDigit (pageTokenLit ++ t) s hc
      rw [hrepl, regexpExpand_literal _ _ _ _ hlit, hsplit, ← List.append_assoc pre]
      refine DigitsReplaced.fragment pre ds post _ hpre hne hdig hpost (ih post ?_)
      have hlen : s.length = pre.length + pageTokenLit.length + ds.length + post.length := by
        rw [hsplit]
        simp only [List.length_append]
      have : pageTokenLit.length = 11 := rfl
      omega
    · rw [replaceChars_unchanged _ _ _ hc]
      exact DigitsReplaced.unchanged s hc

theorem isPrefixOf_append_of_length_le (w a b : List Char) (h : w.length ≤ a.length) :
    w.isPrefixOf (a ++ b) = w.isPrefixOf a := by
  induction w generalizing a with
  | nil => simp
  | cons x w ih =>
    cases a with
    | nil => simp at h
    | cons y a =>
      have hw := ih a (by simpa using h)
      simp only [List.cons_append, List.isPrefixOf, List.append_eq, hw]

theorem countPageToken_digits (x y : List Char) (hx : ∀ c ∈ x, c.isDigit = true) :
    countPageToken (x ++ y) = countPageToken y := by
  induction x with
  | nil => rfl
  | cons c x ih =>
    have hc : c ≠ 'p' := by
      intro h
      have := hx c (List.mem_cons_self _ _)
      rw [h] at this
      revert this
      decide
    have hp : pageTokenLit.isPrefixOf (c :: (x ++ y)) = false := by
      have : pageTokenLit = 'p' :: pageTokenLit.tail := rfl
      rw [this, List.isPrefixOf]
      simp [Ne.symm hc]
    rw [List.cons_append, countPageToken, hp, ih (fun c hc => hx c (List.mem_cons_of_mem _ hc))]
    simp

theorem countPageToken_literal (y : List Char) :
    countPageToken (pageTokenLit ++ y) = 1 + countPageToken y := by
  simp [pageTokenLit, countPageToken, List.isPrefixOf]

theorem countPageToken_fragment (pre x y : List Char) (hx : ∀ c ∈ x, c.isDigit = true) :
    countPageToken (pre ++ pageTokenLit ++ x ++ y) =
      countPageToken (pre ++ pageTokenLit) + countPageToken y := by
  induction pre with
  | nil =>
    have h1 : countPageToken pageTokenLit = 1 := by decide
    show countPageToken (pageTokenLit ++ x ++ y) = countPageToken pageTokenLit + _
    rw [h1, List.append_assoc, countPageToken_literal, countPageToken_digits x y hx]
  | cons c pre ih =>
    have hlen : pageTokenLit.length ≤ (c :: (pre ++ pageTokenLit)).length := by
      simp only [List.length_cons, List.length_append]
      omega
    have hcons : ∀ (a : Char) (as : List Char), countPageToken (a :: as) =
        (if pageTokenLit.isPrefixOf (a :: as) then 1 else 0) + countPageToken as :=
      fun _ _ => rfl
    have hp := isPrefixOf_append_of_length_le pageTokenLit (c :: (pre ++ pageTokenLit))
      (x ++ y) hlen
    have hshape : c :: pre ++ pageTokenLit ++ x ++ y = c :: (pre ++ pageTokenLit ++ x ++ y) :=
      rfl
    have hshape2 : c :: (pre ++ pageTokenLit) ++ (x ++ y) =
        c :: (pre ++ pageTokenLit ++ x ++ y) := by
      simp
    rw [hshape2] at hp
    rw [hshape, hcons, hp, ih]
    show _ = countPageToken (c :: (pre ++ pageTokenLit)) + countPageToken y
    rw [hcons]
    omega

theorem digitsReplaced_count (t s s' : List Char) (ht : ∀ c ∈ t, c.isDigit = true)
    (h : DigitsReplaced t s s') : countPageToken s' = countPageToken s := by
  induction h with
  | unchanged s _ => rfl
  | fragment pre ds post post' _ _ hdig _ _ ih =>
    rw [countPageToken_fragment pre t post' ht, countPageToken_fragment pre ds post hdig, ih]

/-- C2. Repeat step: for a raw query that already contains a `page_token=<digits>`
fragment, and a mapping body with a non-null `total_results` and a `next_page_token` `t`
made of digits, `ParseLinks` returns no error and appends the `next` link whose URI is `?`
followed by the rewritten query; the rewritten query is the original one with the digits of
the fragment replaced by `t` and every other character unchanged, and it contains the same
number of `page_token` parameters as the original. -/
theorem ParseLinks_repeat (letterOrDigit : Char → Bool) (base : URL) (resp : cli.Response)
    (b : List (String × GoAny)) (t : String)
    (hbody : resp.Body = .map b)
    (htotal : (mapIndex b "total_results").isNil = false)
    (htoken : mapIndex b "next_page_token" = .str t)
    (hdigits : ∀ c ∈ t.data, c.isDigit = true)
    (hquery : HasPageToken base.RawQuery) :
    ∃ q : String,
      ParseLinks letterOrDigit false base resp =
        .returned (none,
          { Links := Function.update resp.Links "next"
              (resp.Links "next" ++ [{ Rel := "next", URI := "?" ++ q }])
            Body := unwrappedBody b resp.Body }) ∧
      DigitsReplaced t.data base.RawQuery.data q.data ∧
      countPageToken q.data = countPageToken base.RawQuery.data := by
  have hm : rePageToken.MatchString base.RawQuery = true := (MatchString_iff _).mpr hquery
  have hstr : (GoAny.str t).isNil = false := rfl
  have hrel : DigitsReplaced t.data base.RawQuery.data
      (rePageToken.ReplaceAllString letterOrDigit base.RawQuery ("page_token=" ++ t)).data := by
    have hdata : ("page_token=" ++ t).data = pageTokenLit ++ t.data := by
      rw [String.data_append]
      rfl
    simp only [rePageToken.ReplaceAllString, hdata]
    exact replaceChars_digitsReplaced letterOrDigit t.data hdigits _ _ (Nat.le_refl _)
  refine ⟨rePageToken.ReplaceAllString letterOrDigit base.RawQuery ("page_token=" ++ t),
    ?_, hrel, digitsReplaced_count _ _ _ hdigits hrel⟩
  simp only [ParseLinks, hbody, htotal, ParseLinks.next, htoken, hstr, hm, unwrappedBody]
  cases ParseLinks.unwrap b (b.map Prod.fst) <;> simp

/-- Witness of C2: query `page_token=10&foo=bar` with `next_page_token` `"20"` gives the
URI `?page_token=20&foo=bar`. -/
theorem ParseLinks_repeat_witness :
    (∃ q : String,
      ParseLinks Char.isAlphanum false { Path := "/domains", RawQuery := "page_token=10&foo=bar" }
          { Links := fun _ => []
            Body := .map [("total_results", .number 5), ("next_page_token", .str "20"),
              ("items", .slice [.number 4])] } =
        .returned (none,
          { Links := Function.update (fun _ => []) "next" [{ Rel := "next", URI := "?" ++ q }]
            Body := .slice [.number 4] }) ∧
      DigitsReplaced "20".data "page_token=10&foo=bar".data q.data ∧
      countPageToken q.data = countPageToken "page_token=10&foo=bar".data) ∧
    ParseLinks Char.isAlphanum false { Path := "/domains", RawQuery := "page_token=10&foo=bar" }
        { Links := fun _ => []
          Body := .map [("total_results", .number 5), ("next_page_token", .str "20"),
            ("items", .slice [.number 4])] } =
      .returned (none,
        { Links := Function.update (fun _ => []) "next"
            [{ Rel := "next", URI := "?page_token=20&foo=bar" }]
          Body := .slice [.number 4] }) :=
  ⟨ParseLinks_repeat Char.isAlphanum
      { Path := "/domains", RawQuery := "page_token=10&foo=bar" }
      { Links := fun _ => []
        Body := .map [("total_results", .number 5), ("next_page_token", .str "20"),
          ("items", .slice [.number 4])] }
      _ "20" rfl rfl rfl (by decide) ((MatchString_iff _).mp (by decide)),
    rfl⟩

/-- C3. A non-paginated response is left untouched: when pagination is disabled by
configuration, or the body is not a keyed mapping, or the mapping has no `total_results`
field (or holds null there), `ParseLinks` returns no error and the response after the
call, body and link relations, is the response before the call. -/
theorem ParseLinks_frame (letterOrDigit : Char → Bool) (noPaginate : Bool) (base : URL)
    (resp : cli.Response)
    (h : noPaginate = true ∨ (∀ b, resp.Body ≠ .map b) ∨
      ∃ b, resp.Body = .map b ∧
        (b.lookup "total_results" = none ∨ b.lookup "total_results" = some .nil)) :
    ParseLinks letterOrDigit noPaginate base resp = .returned (none, resp) := by
  rcases h with h | h | ⟨b, hb, h⟩
  · simp [ParseLinks, h]
  · unfold ParseLinks
    cases hB : resp.Body with
    | map b => exact absurd hB (h b)
    | _ => simp
  · have hnil : (mapIndex b "total_results").isNil = true := by
      rcases h with h | h <;> simp [mapIndex, h, GoAny.isNil]
    simp [ParseLinks, hb, hnil]

/-- Witness of C3: pagination disabled, a plain sequence, and a mapping without
`total_results`. -/
theorem ParseLinks_frame_witness :
    (ParseLinks Char.isAlphanum true { Path := "/", RawQuery := "foo=bar" }
        { Links := fun _ => []
          Body := .map [("total_results", .number 5), ("next_page_token", .str "10")] } =
      .returned (none,
        { Links := fun _ => []
          Body := .map [("total_results", .number 5), ("next_page_token", .str "10")] })) ∧
    (ParseLinks Char.isAlphanum false { Path := "/", RawQuery := "foo=bar" }
        { Links := fun _ => [], Body := .slice [.number 1, .number 2] } =
      .returned (none, { Links := fun _ => [], Body := .slice [.number 1, .number 2] })) ∧
    (ParseLinks Char.isAlphanum false { Path := "/", RawQuery := "foo=bar" }
        { Links := fun _ => []
          Body := .map [("next_page_token", .str "10"), ("items", .slice [])] } =
      .returned (none,
        { Links := fun _ => []
          Body := .map [("next_page_token", .str "10"), ("items", .slice [])] })) :=
  ⟨ParseLinks_frame _ true _ _ (Or.inl rfl),
   ParseLinks_frame _ false _ _ (Or.inr (Or.inl (fun _ h => by cases h))),
   ParseLinks_frame _ false _ _ (Or.inr (Or.inr ⟨_, rfl, Or.inl rfl⟩))⟩

/-- C4, at the failing input: with body `{"total_results":5,"next_page_token":10}` (the
token is a JSON number) the unchecked assertion `b["next_page_token"].(string)` panics, so
the call neither returns nor merely adds no link. -/
theorem ParseLinks_panics_on_number_token (letterOrDigit : Char → Bool) :
    ParseLinks letterOrDigit false { Path := "/domains", RawQuery := "foo=bar" }
        { Links := fun _ => []
          Body := .map [("total_results", .number 5), ("next_page_token", .number 10)] } =
      .panicked :=
  rfl

/-! ## Extension lookup -/

/-- C9. `getExt` defaulting: for every bag `v` (the nil bag included), key `k` and default
`d`, if `k` is absent from `v`, or stored with a nil value, or stored with a value that is
not of the expected type, then `getExt v k d` is exactly `d`; if `k` is stored with a value
of the expected type, `getExt` returns that value.  The function is total. -/
theorem getExt_spec {T : Type} [GoType T] (v : ExtBag) (k : String) (d : T) :
    ((v = none ∨ ∃ m, v = some m ∧
        (m.lookup k = none ∨ m.lookup k = some .nil ∨
          ∃ i, m.lookup k = some i ∧ (GoType.assert i : Option T) = none)) →
      getExt v k d = d) ∧
    (∀ m i t, v = some m → m.lookup k = some i → (GoType.assert i : Option T) = some t →
      getExt v k d = t) := by
  constructor
  · rintro (rfl | ⟨m, rfl, h | h | ⟨i, hi, ha⟩⟩)
    · rfl
    · simp [getExt, mapIndex, h, GoAny.isNil]
    · simp [getExt, mapIndex, h, GoAny.isNil]
    · simp only [getExt, mapIndex, hi, ha]
      split <;> rfl
  · rintro m i t rfl hi ha
    have hnil : i.isNil = false := by
      cases i with
      | nil => rw [GoType.assert_nil] at ha; cases ha
      | _ => rfl
    simp [getExt, mapIndex, hi, ha, hnil]

/-- Witness of C9: a nil bag, a missing key, a nil value and a value of another type give
the default, for the types `bool` and `string`; a stored `bool` and a stored `string` are
returned. -/
theorem getExt_spec_witness :
    getExt none "x-cli-hidden" true = true ∧
    getExt (some [("x-cli-name", .str "users")]) "x-cli-description" "fallback" = "fallback" ∧
    getExt (some [("x-cli-name", .nil)]) "x-cli-name" "fallback" = "fallback" ∧
    getExt (some [("x-cli-ignore", .str "yes")]) "x-cli-ignore" false = false ∧
    getExt (some [("x-cli-ignore", .bool true)]) "x-cli-ignore" false = true ∧
    getExt (some [("x-cli-name", .str "users")]) "x-cli-name" "fallback" = "users" :=
  ⟨(getExt_spec none "x-cli-hidden" true).1 (Or.inl rfl),
   (getExt_spec _ "x-cli-description" "fallback").1 (Or.inr ⟨_, rfl, Or.inl rfl⟩),
   (getExt_spec _ "x-cli-name" "fallback").1 (Or.inr ⟨_, rfl, Or.inr (Or.inl rfl)⟩),
   (getExt_spec _ "x-cli-ignore" false).1 (Or.inr ⟨_, rfl, Or.inr (Or.inr ⟨_, rfl, rfl⟩)⟩),
   (getExt_spec _ "x-cli-ignore" false).2 _ _ true rfl rfl rfl,
   (getExt_spec _ "x-cli-name" "fallback").2 _ _ "users" rfl rfl rfl⟩

theorem getExtSlice_loop {T : Type} [GoType T] (s : List GoAny) (k : Nat) (hk : k ≤ s.length) :
    (List.range k).foldl (getExtSlice.step s) (List.replicate s.length (GoType.zero : T)) =
      (s.take k).map assertOrZero ++ List.replicate (s.length - k) GoType.zero := by
  induction k with
  | zero => simp
  | succ k ih =>
    have hlt : k < s.length := hk
    rw [List.range_succ, List.foldl_append, ih (Nat.le_of_lt hlt)]
    have hget : s.getD k .nil = s[k] := by simp [List.getD, List.getElem?_eq_getElem hlt]
    have hrep : List.replicate (s.length - k) (GoType.zero : T) =
        GoType.zero :: List.replicate (s.length - (k + 1)) GoType.zero := by
      rw [← List.replicate_succ]
      congr 1
      omega
    have htake : s.take (k + 1) = s.take k ++ [s[k]] := by
      rw [List.take_succ, List.getElem?_eq_getElem hlt]
      rfl
    simp only [List.foldl_cons, List.foldl_nil, getExtSlice.step, hget, htake, List.map_append,
      List.map_cons, List.map_nil, List.append_assoc, List.singleton_append]
    have hlen : ((s.take k).map (assertOrZero : GoAny → T)).length = k := by
      simp [Nat.min_eq_left (Nat.le_of_lt hlt)]
    cases ha : (GoType.assert s[k] : Option T) with
    | none =>
      simp only [assertOrZero, ha]
      rw [hrep]
    | some t =>
      simp only [assertOrZero, ha]
      rw [hrep, List.set_append_right _ _ (by rw [hlen]), hlen]
      simp

/-- C10, as amended. When key `k` holds a non-empty untyped sequence `s`, `getExtSlice`
returns a sequence of the same length as `s` whose `i`-th element is `s[i]` when that
element has the expected type and the zero value of the type otherwise (rejected elements
leave a placeholder; nothing is removed).  When the bag is nil, or `k` is absent, is not a
sequence, or is an empty sequence, it returns the caller's default sequence. -/
theorem getExtSlice_positional {T : Type} [GoType T] (v : ExtBag) (k : String)
    (dflt : List T) :
    (∀ m s, v = some m → m.lookup k = some (.slice s) → s ≠ [] →
      getExtSlice v k dflt = s.map assertOrZero ∧
      (getExtSlice v k dflt).length = s.length) ∧
    ((v = none ∨ ∃ m, v = some m ∧
        (m.lookup k = none ∨ (∃ i, m.lookup k = some i ∧ ∀ s, i ≠ .slice s) ∨
          m.lookup k = some (.slice []))) →
      getExtSlice v k dflt = dflt) := by
  constructor
  · rintro m s rfl hs hne
    have hpos : s.length > 0 := List.length_pos.mpr hne
    have hval : getExtSlice (some m) k dflt = s.map assertOrZero := by
      simp only [getExtSlice, mapIndex, hs, GoAny.isNil]
      simp only [hpos, if_true, Bool.not_false]
      rw [getExtSlice_loop s s.length (Nat.le_refl _)]
      simp
    exact ⟨hval, by rw [hval, List.length_map]⟩
  · rintro (rfl | ⟨m, rfl, h | ⟨i, hi, hns⟩ | h⟩)
    · rfl
    · simp [getExtSlice, mapIndex, h, GoAny.isNil]
    · simp only [getExtSlice, mapIndex, hi]
      cases i with
      | slice s => exact absurd rfl (hns s)
      | _ => simp [GoAny.isNil]
    · simp [getExtSlice, mapIndex, h, GoAny.isNil]

/-- Witness of C10 as amended: the sequence `["a", 1, "b"]` read as strings, and the four
defaulting cases. -/
theorem getExtSlice_positional_witness :
    getExtSlice (some [("x-cli-aliases", .slice [.str "a", .number 1, .str "b"])])
      "x-cli-aliases" ["d"] = ["a", "", "b"] ∧
    getExtSlice none "x-cli-aliases" ["d"] = ["d"] ∧
    getExtSlice (some [("x-cli-name", .str "n")]) "x-cli-aliases" ["d"] = ["d"] ∧
    getExtSlice (some [("x-cli-aliases", .str "a")]) "x-cli-aliases" ["d"] = ["d"] ∧
    getExtSlice (some [("x-cli-aliases", .slice [])]) "x-cli-aliases" ["d"] = ["d"] :=
  ⟨((getExtSlice_positional
      (some [("x-cli-aliases", .slice [.str "a", .number 1, .str "b"])]) "x-cli-aliases"
      ["d"]).1 _ _ rfl rfl (by simp)).1,
   (getExtSlice_positional none "x-cli-aliases" ["d"]).2 (Or.inl rfl),
   (getExtSlice_positional _ "x-cli-aliases" ["d"]).2 (Or.inr ⟨_, rfl, Or.inl rfl⟩),
   (getExtSlice_positional _ "x-cli-aliases" ["d"]).2
     (Or.inr ⟨_, rfl, Or.inr (Or.inl ⟨_, rfl, fun _ h => by cases h⟩)⟩),
   (getExtSlice_positional _ "x-cli-aliases" ["d"]).2
     (Or.inr ⟨_, rfl, Or.inr (Or.inr rfl)⟩)⟩

/-- Counterexample to C10 as stated: for the sequence `["a", 1, "b"]` read as strings the
result is `["a", "", "b"]`, with an empty placeholder for the rejected element, and not the
filtered sequence `["a", "b"]` of the elements that are strings. -/
theorem getExtSlice_not_filtered :
    getExtSlice (some [("x-cli-aliases", .slice [.str "a", .number 1, .str "b"])])
      "x-cli-aliases" ([] : List String) = ["a", "", "b"] ∧
    [GoAny.str "a", .number 1, .str "b"].filterMap (GoType.assert : GoAny → Option String) =
      ["a", "b"] ∧
    getExtSlice (some [("x-cli-aliases", .slice [.str "a", .number 1, .str "b"])])
      "x-cli-aliases" ([] : List String) ≠
      [GoAny.str "a", .number 1, .str "b"].filterMap (GoType.assert : GoAny → Option String) := by
  refine ⟨rfl, rfl, ?_⟩
  decide

/-! ## `openapiOperation`: parameters -/

theorem combineParams_first_loop (ps acc : List v2.Parameter) (seen : String → Bool) :
    ps.foldl
        (fun (st : List v2.Parameter × (String → Bool)) p =>
          (st.1 ++ [p], Function.update st.2 p.Name true))
        (acc, seen) =
      (acc ++ ps, fun n => seen n || decide (n ∈ ps.map (fun p => p.Name))) := by
  induction ps generalizing acc seen with
  | nil => simp
  | cons p ps ih =>
    rw [List.foldl_cons, ih]
    refine Prod.ext (by simp) ?_
    funext n
    by_cases h : n = p.Name
    · subst h
      simp
    · simp [Function.update, h]

theorem combineParams_second_loop (seen : String → Bool) (ps acc : List v2.Parameter) :
    ps.foldl (fun combined p => if !(seen p.Name) then combined ++ [p] else combined) acc =
      acc ++ ps.filter (fun p => !(seen p.Name)) := by
  induction ps generalizing acc with
  | nil => simp
  | cons p ps ih =>
    rw [List.foldl_cons, ih]
    cases h : seen p.Name <;> simp [h, List.filter_cons]

theorem combineParams_eq (opParams pathParams : List v2.Parameter) :
    combineParams opParams pathParams =
      opParams ++
        pathParams.filter (fun p => decide (p.Name ∉ opParams.map (fun o => o.Name))) := by
  unfold combineParams
  rw [combineParams_first_loop, combineParams_second_loop]
  simp only [List.nil_append, Bool.false_or]
  congr 1
  apply List.filter_congr
  intro p _
  by_cases h : p.Name ∈ opParams.map (fun o => o.Name) <;> simp [h]

/-- C6. Parameter precedence: the merged parameter list is the operation's parameter list
followed by exactly those parameters of the path item, in their declared order, whose
name does not occur at operation level.  Hence for a name declared at both levels the
merged list holds the operation-level declaration, and its path-level part holds no
parameter of that name. -/
theorem combineParams_precedence (opParams pathParams : List v2.Parameter) :
    combineParams opParams pathParams =
      opParams ++
        pathParams.filter (fun p => decide (p.Name ∉ opParams.map (fun o => o.Name))) ∧
    (∀ o ∈ opParams, o ∈ combineParams opParams pathParams) ∧
    (∀ q ∈ (combineParams opParams pathParams).drop opParams.length,
      q ∈ pathParams ∧ q.Name ∉ opParams.map (fun o => o.Name)) ∧
    (∀ p ∈ pathParams, p.Name ∉ opParams.map (fun o => o.Name) →
      p ∈ (combineParams opParams pathParams).drop opParams.length) := by
  rw [combineParams_eq, List.drop_left]
  refine ⟨rfl, ?_, ?_, ?_⟩
  · intro o ho
    exact List.mem_append_left _ ho
  · intro q hq
    rw [List.mem_filter] at hq
    exact ⟨hq.1, by simpa using hq.2⟩
  · intro p hp hn
    rw [List.mem_filter]
    exact ⟨hp, by simpa using hn⟩

/-- Witness of C6: the operation declares `id` (in the query) and `limit`, the path item
declares `id` (in the path) and `verbose`; the merged list is the operation's `id`, then
`limit`, then `verbose`. -/
theorem combineParams_precedence_witness :
    combineParams
        [{ Name := "id", In := "query", Description := "", Schema := none, Extensions := none },
         { Name := "limit", In := "query", Description := "", Schema := none,
           Extensions := none }]
        [{ Name := "id", In := "path", Description := "", Schema := none, Extensions := none },
         { Name := "verbose", In := "query", Description := "", Schema := none,
           Extensions := none }] =
      [{ Name := "id", In := "query", Description := "", Schema := none, Extensions := none },
       { Name := "limit", In := "query", Description := "", Schema := none, Extensions := none },
       { Name := "verbose", In := "query", Description := "", Schema := none,
         Extensions := none }] :=
  (combineParams_precedence _ _).1.trans rfl

/-- C8, at the failing input: a query parameter whose schema has type `array` and whose
item schema cannot be resolved (`s.Items.A.Schema()` is nil).  The code reads
`items.Type` through the nil pointer and panics, instead of leaving the type `array`. -/
theorem openapiOperation_panics_on_unresolved_items (lib : Lib) :
    openapiOperation lib "GET" { Path := "/users", RawQuery := "" } emptyPath
      (arrayOperation (some (.A (.mk none)))) = .panicked :=
  rfl

/-! ## `openapiOperation`: naming -/

theorem classifyParams_returns (params : List v2.Parameter) (acc : paramLists)
    (h : ParamsResolved params) : ∃ ps, classifyParams params acc = .returned ps := by
  induction params generalizing acc with
  | nil => exact ⟨acc, rfl⟩
  | cons p rest ih =>
    have hrest : ParamsResolved rest := fun q hq => h q (List.mem_cons_of_mem _ hq)
    by_cases hi : getExt p.Extensions ExtIgnore false = true
    · rw [classifyParams, if_pos hi]
      exact ih acc hrest
    · obtain ⟨r, hr⟩ := h p (List.mem_cons_self _ _) (by simpa using hi)
      rw [classifyParams, if_neg hi]
      simp only [hr]
      split_ifs <;> exact ih _ hrest

theorem openapiOperation_returns (lib : Lib) (method : String) (uriTemplate : URL)
    (path : v2.PathItem) (op : v2.Operation)
    (h : ParamsResolved (combineParams op.Parameters path.Parameters))
    (hresp : op.Responses ≠ none) :
    ∃ d, openapiOperation lib method uriTemplate path op = .returned d := by
  obtain ⟨ps, hps⟩ := classifyParams_returns _
    { pathParams := [], queryParams := [], headerParams := []
      pathSchemas := [], querySchemas := [], headerSchemas := [] } h
  cases hR : op.Responses with
  | none => exact absurd hR hresp
  | some codes =>
    simp only [openapiOperation, hps, describeResponses, hR]
    exact ⟨_, rfl⟩

/-- An operation that declares no responses: the parameters are classified, and then line
237 dereferences the nil pointer `op.Responses`. -/
theorem openapiOperation_panics_on_nil_responses (lib : Lib) (method : String)
    (uriTemplate : URL) (path : v2.PathItem) (op : v2.Operation)
    (hresp : op.Responses = none) :
    openapiOperation lib method uriTemplate path op = .panicked := by
  cases hc : classifyParams (combineParams op.Parameters path.Parameters)
      { pathParams := [], queryParams := [], headerParams := []
        pathSchemas := [], querySchemas := [], headerSchemas := [] } with
  | panicked => simp only [openapiOperation, hc]
  | returned ps => simp only [openapiOperation, hc, describeResponses, hresp]

theorem openapiOperation_name (lib : Lib) (method : String) (uriTemplate : URL)
    (path : v2.PathItem) (op : v2.Operation) (d : cli.Operation)
    (hret : openapiOperation lib method uriTemplate path op = .returned d) :
    d.Name = (operationName lib method uriTemplate op).1 ∧
      d.Aliases = (operationName lib method uriTemplate op).2 := by
  cases hc : classifyParams (combineParams op.Parameters path.Parameters)
      { pathParams := [], queryParams := [], headerParams := []
        pathSchemas := [], querySchemas := [], headerSchemas := [] } with
  | panicked =>
    simp only [openapiOperation, hc] at hret
    cases hret
  | returned ps =>
    cases hR : op.Responses with
    | none =>
      simp only [openapiOperation, hc, describeResponses, hR] at hret
      cases hret
    | some codes =>
      simp only [openapiOperation, hc, describeResponses, hR, Outcome.returned.injEq] at hret
      subst hret
      exact ⟨rfl, rfl⟩

/-- C7, as amended. For an operation that declares responses and whose parameters can be
typed, so that a descriptor is produced, and with no `x-cli-name` override: the
descriptor's name is the hyphen-case form of the operation identifier when that form is
non-empty, and the hyphen-case form of `<method>-<path without leading and trailing "/">`
when that form is empty. -/
theorem openapiOperation_canonical_name (lib : Lib) (method : String) (uriTemplate : URL)
    (path : v2.PathItem) (op : v2.Operation)
    (hres : ParamsResolved (combineParams op.Parameters path.Parameters))
    (hresp : op.Responses ≠ none)
    (hno : getExt op.Extensions ExtName "" = "") :
    ∃ d, openapiOperation lib method uriTemplate path op = .returned d ∧
      (lib.Kebab op.OperationId ≠ "" → d.Name = lib.Kebab op.OperationId) ∧
      (lib.Kebab op.OperationId = "" →
        d.Name = lib.Kebab (method ++ "-" ++ stringsTrim uriTemplate.Path "/")) := by
  obtain ⟨d, hd⟩ := openapiOperation_returns lib method uriTemplate path op hres hresp
  refine ⟨d, hd, ?_⟩
  rw [(openapiOperation_name lib method uriTemplate path op d hd).1]
  unfold operationName
  simp only [hno, ne_eq, not_true_eq_false, if_false]
  constructor
  · intro h
    rw [if_neg h]
    split <;> rfl
  · intro h
    rw [if_pos h]
    split <;> rfl

/-- Witness of C7 as amended: identifier `listUsers` gives the name `list-users`; an empty
identifier with method `GET` and path `/v1/users/{id}` gives `get-v1-users-id`. -/
theorem openapiOperation_canonical_name_witness :
    (∃ d, openapiOperation sampleLib "GET" { Path := "/users", RawQuery := "" } emptyPath
        (sampleOperation "listUsers") = .returned d ∧ d.Name = "list-users") ∧
    (∃ d, openapiOperation sampleLib "GET" { Path := "/v1/users/\x7bid\x7d", RawQuery := "" }
        emptyPath (sampleOperation "") = .returned d ∧ d.Name = "get-v1-users-id") := by
  constructor
  · obtain ⟨d, hd, h1, _⟩ := openapiOperation_canonical_name sampleLib "GET"
      { Path := "/users", RawQuery := "" } emptyPath (sampleOperation "listUsers")
      (fun p hp => by cases hp) (fun h => by cases h) rfl
    exact ⟨d, hd, (h1 (by decide)).trans (by decide)⟩
  · obtain ⟨d, hd, _, h2⟩ := openapiOperation_canonical_name sampleLib "GET"
      { Path := "/v1/users/\x7bid\x7d", RawQuery := "" } emptyPath (sampleOperation "")
      (fun p hp => by cases hp) (fun h => by cases h) rfl
    exact ⟨d, hd, (h2 (by decide)).trans (by decide)⟩

/-- Counterexample to C7 as stated: the identifier `-` is non-empty, but its hyphen-case
form is empty, so with method `GET` and path `/v1/users/{id}` the name is
`get-v1-users-id` and not the hyphen-case form of the identifier. -/
theorem openapiOperation_name_of_separator_identifier :
    ∃ d, openapiOperation sampleLib "GET" { Path := "/v1/users/\x7bid\x7d", RawQuery := "" }
        emptyPath (sampleOperation "-") = .returned d ∧
      getExt (sampleOperation "-").Extensions ExtName "" = "" ∧
      (sampleOperation "-").OperationId ≠ "" ∧
      d.Name = "get-v1-users-id" ∧
      d.Name ≠ sampleLib.Kebab (sampleOperation "-").OperationId :=
  ⟨_, rfl, rfl, by decide, by decide, by decide⟩

/-! ## `openapiOperation`: response sections -/

/-- C5, at the failing input: the responses `200` and `404` have different schemas, yet
every code is filed under the key `[32]byte{}`, so the description holds the single
section `## Responses 200/404`, stating that the response has no body, and no section
`## Response 200` or `## Response 404`. -/
theorem openapiOperation_coalesces_responses (lib : Lib) :
    ∃ d, openapiOperation lib "GET" { Path := "/users", RawQuery := "" } emptyPath
        twoResponses = .returned d ∧
      d.Long = "List users\n## Responses 200/404\n\nResponse has no body\n" :=
  ⟨_, rfl, rfl⟩

/-! ## `ParseLinks`: the token step and the unwrap step -/

theorem ParseLinks_string_token (letterOrDigit : Char → Bool) (base : URL)
    (resp : cli.Response) (b : List (String × GoAny)) (t : String)
    (hbody : resp.Body = .map b)
    (htotal : (mapIndex b "total_results").isNil = false)
    (htoken : mapIndex b "next_page_token" = .str t) :
    ParseLinks letterOrDigit false base resp =
      .returned (none,
        { Links := Function.update resp.Links "next"
            (resp.Links "next" ++
              [{ Rel := "next"
                 URI := "?" ++
                   (if rePageToken.MatchString base.RawQuery = true then
                      rePageToken.ReplaceAllString letterOrDigit base.RawQuery
                        ("page_token=" ++ t)
                    else "page_token=" ++ t ++ "&" ++ base.RawQuery) }])
          Body := unwrappedBody b resp.Body }) := by
  have hstr : (GoAny.str t).isNil = false := rfl
  simp only [ParseLinks, hbody, htotal, ParseLinks.next, htoken, hstr, unwrappedBody]
  cases ParseLinks.unwrap b (b.map Prod.fst) <;> simp

theorem ParseLinks_nil_token (letterOrDigit : Char → Bool) (base : URL)
    (resp : cli.Response) (b : List (String × GoAny))
    (hbody : resp.Body = .map b)
    (htotal : (mapIndex b "total_results").isNil = false)
    (htoken : (mapIndex b "next_page_token").isNil = true) :
    ParseLinks letterOrDigit false base resp =
      .returned (none, { Links := resp.Links, Body := unwrappedBody b resp.Body }) := by
  simp only [ParseLinks, hbody, htotal, ParseLinks.next, htoken, unwrappedBody]
  cases ParseLinks.unwrap b (b.map Prod.fst) <;> simp

theorem ParseLinks_returned_body (letterOrDigit : Char → Bool) (base : URL)
    (resp : cli.Response) (b : List (String × GoAny))
    (r : Option GoError × cli.Response)
    (hbody : resp.Body = .map b)
    (htotal : (mapIndex b "total_results").isNil = false)
    (hret : ParseLinks letterOrDigit false base resp = .returned r) :
    r.1 = none ∧ r.2.Body = unwrappedBody b resp.Body := by
  simp only [ParseLinks, hbody, htotal, unwrappedBody] at hret ⊢
  cases hn : ParseLinks.next letterOrDigit base b resp.Links with
  | panicked =>
    simp [hn] at hret
  | returned links =>
    simp only [hn] at hret
    cases hu : ParseLinks.unwrap b (b.map Prod.fst) with
    | none =>
      simp only [hu, Bool.not_false, if_true, Outcome.returned.injEq] at hret
      subst hret
      exact ⟨rfl, rfl⟩
    | some v =>
      simp only [hu, Bool.not_false, if_true, Outcome.returned.injEq] at hret
      subst hret
      exact ⟨rfl, rfl⟩

theorem mapIndex_mem (b : List (String × GoAny)) (k : String) :
    mapIndex b k = .nil ∨ (k, mapIndex b k) ∈ b := by
  induction b with
  | nil => exact Or.inl rfl
  | cons kv rest ih =>
    obtain ⟨k', v⟩ := kv
    by_cases h : k = k'
    · subst h
      right
      simp [mapIndex]
    · have hne : (k == k') = false := by simpa using h
      have : mapIndex ((k', v) :: rest) k = mapIndex rest k := by
        simp [mapIndex, List.lookup_cons, hne]
      rw [this]
      rcases ih with ih | ih
      · exact Or.inl ih
      · exact Or.inr (List.mem_cons_of_mem _ ih)

theorem unwrap_none (b : List (String × GoAny)) (keys : List String)
    (h : ∀ kv ∈ b, ∀ ys, kv.2 ≠ .slice ys) : ParseLinks.unwrap b keys = none := by
  induction keys with
  | nil => rfl
  | cons k rest ih =>
    rw [ParseLinks.unwrap]
    cases hm : mapIndex b k with
    | slice xs =>
      rcases mapIndex_mem b k with h0 | h0
      · rw [hm] at h0
        cases h0
      · rw [hm] at h0
        exact absurd rfl (h _ h0 xs)
    | _ => simpa using ih

theorem mapIndex_append_left (pre post : List (String × GoAny)) (k : String)
    (hk : k ∈ pre.map Prod.fst) : mapIndex (pre ++ post) k = mapIndex pre k := by
  unfold mapIndex
  rw [List.lookup_append]
  cases hl : pre.lookup k with
  | some v => rfl
  | none =>
    rw [List.lookup_eq_none_iff] at hl
    obtain ⟨kv, hkv, rfl⟩ := List.mem_map.mp hk
    have := hl kv hkv
    simp at this

theorem mapIndex_append_right (pre post : List (String × GoAny)) (k : String)
    (hk : k ∉ pre.map Prod.fst) : mapIndex (pre ++ post) k = mapIndex post k := by
  unfold mapIndex
  rw [List.lookup_append]
  have : pre.lookup k = none := by
    rw [List.lookup_eq_none_iff]
    intro kv hkv
    rw [bne_iff_ne]
    intro heq
    exact hk (List.mem_map.mpr ⟨kv, hkv, heq.symm⟩)
  rw [this]
  rfl

theorem unwrap_skip (b : List (String × GoAny)) (keys rest : List String)
    (h : ∀ k ∈ keys, ∀ ys, mapIndex b k ≠ .slice ys) :
    ParseLinks.unwrap b (keys ++ rest) = ParseLinks.unwrap b rest := by
  induction keys with
  | nil => rfl
  | cons k ks ih =>
    rw [List.cons_append, ParseLinks.unwrap]
    have hk := h k (List.mem_cons_self _ _)
    have hks := ih (fun k' hk' => h k' (List.mem_cons_of_mem _ hk'))
    cases hm : mapIndex b k with
    | slice xs => exact absurd hm (hk xs)
    | _ => simpa using hks

/-- The unwrap loop returns the first sequence-valued entry in iteration order. -/
theorem unwrap_first (pre post : List (String × GoAny)) (k : String) (xs : List GoAny)
    (hkeys : ((pre ++ (k, GoAny.slice xs) :: post).map Prod.fst).Nodup)
    (hpre : ∀ kv ∈ pre, ∀ ys, kv.2 ≠ .slice ys) :
    ParseLinks.unwrap (pre ++ (k, .slice xs) :: post)
      ((pre ++ (k, .slice xs) :: post).map Prod.fst) = some (.slice xs) := by
  have hk : k ∉ pre.map Prod.fst := by
    rw [List.map_append, List.nodup_append] at hkeys
    intro hmem
    exact hkeys.2.2 hmem (by simp)
  rw [List.map_append, unwrap_skip]
  · rw [List.map_cons, ParseLinks.unwrap, mapIndex_append_right _ _ _ hk]
    simp [mapIndex]
  · intro k' hk' ys hm
    rw [mapIndex_append_left _ _ _ hk'] at hm
    rcases mapIndex_mem pre k' with h0 | h0
    · rw [hm] at h0
      cases h0
    · rw [hm] at h0
      exact hpre _ h0 ys rfl

theorem countPageToken_le_append (x y : List Char) :
    countPageToken y ≤ countPageToken (x ++ y) := by
  induction x with
  | nil => exact Nat.le_refl _
  | cons c x ih =>
    rw [List.cons_append, countPageToken]
    omega

theorem countPageToken_skip (x y : List Char) (hx : ∀ c ∈ x, c ≠ 'p') :
    countPageToken (x ++ y) = countPageToken y := by
  induction x with
  | nil => rfl
  | cons c x ih =>
    have hc : c ≠ 'p' := hx c (List.mem_cons_self _ _)
    have hp : pageTokenLit.isPrefixOf (c :: (x ++ y)) = false := by
      have : pageTokenLit = 'p' :: pageTokenLit.tail := rfl
      rw [this, List.isPrefixOf]
      simp [Ne.symm hc]
    rw [List.cons_append, countPageToken, hp, ih (fun c hc => hx c (List.mem_cons_of_mem _ hc))]
    simp

theorem prepended_data (t q : String) :
    ("?page_token=" ++ t ++ "&" ++ q).data = '?' :: (pageTokenLit ++ (t.data ++ '&' :: q.data)) := by
  simp only [String.data_append]
  show ('?' :: pageTokenLit) ++ t.data ++ ['&'] ++ q.data = _
  simp

theorem countPageToken_prepended (t q : String) :
    countPageToken ("?page_token=" ++ t ++ "&" ++ q).data =
      1 + countPageToken (t.data ++ '&' :: q.data) := by
  rw [prepended_data, ← countPageToken_literal]
  exact countPageToken_skip ['?'] _ (by decide)

/-- C14, as amended. For a mapping body with a non-null `total_results` whose
`next_page_token` is present and is the empty string, `ParseLinks` returns no error and
records one `next` link: the token is only tested against nil.  Its URI is `?page_token=&`
followed by the query when the query has no `page_token=<digits>` fragment, and the query
with the digits of its fragments removed otherwise. -/
theorem ParseLinks_empty_token (letterOrDigit : Char → Bool) (base : URL)
    (resp : cli.Response) (b : List (String × GoAny))
    (hbody : resp.Body = .map b)
    (htotal : (mapIndex b "total_results").isNil = false)
    (htoken : mapIndex b "next_page_token" = .str "") :
    ∃ uri : String,
      ParseLinks letterOrDigit false base resp =
        .returned (none,
          { Links := Function.update resp.Links "next"
              (resp.Links "next" ++ [{ Rel := "next", URI := uri }])
            Body := unwrappedBody b resp.Body }) ∧
      (¬ HasPageToken base.RawQuery → uri = "?page_token=&" ++ base.RawQuery) ∧
      (HasPageToken base.RawQuery →
        uri = "?" ++ rePageToken.ReplaceAllString letterOrDigit base.RawQuery "page_token=") := by
  refine ⟨_, ParseLinks_string_token letterOrDigit base resp b "" hbody htotal htoken, ?_, ?_⟩
  · intro h
    have hm : ¬ rePageToken.MatchString base.RawQuery = true := fun hm =>
      h ((MatchString_iff _).mp hm)
    rw [if_neg hm]
    have : "page_token=" ++ "" ++ "&" = "page_token=&" := by decide
    rw [this, ← String.append_assoc]
    rfl
  · intro h
    rw [if_pos ((MatchString_iff _).mpr h)]
    rfl

/-- Witness of C14 as amended: body `{"total_results":5,"next_page_token":"","items":[1]}`
with query `foo=bar`. -/
theorem ParseLinks_empty_token_witness :
    ∃ uri : String,
      ParseLinks Char.isAlphanum false { Path := "/domains", RawQuery := "foo=bar" }
          { Links := fun _ => []
            Body := .map [("total_results", .number 5), ("next_page_token", .str ""),
              ("items", .slice [.number 1])] } =
        .returned (none,
          { Links := Function.update (fun _ => []) "next" [{ Rel := "next", URI := uri }]
            Body := .slice [.number 1] }) ∧
      uri = "?page_token=&foo=bar" := by
  obtain ⟨uri, h, hno, _⟩ := ParseLinks_empty_token Char.isAlphanum
    { Path := "/domains", RawQuery := "foo=bar" }
    { Links := fun _ => []
      Body := .map [("total_results", .number 5), ("next_page_token", .str ""),
        ("items", .slice [.number 1])] }
    _ rfl rfl rfl
  exact ⟨uri, h, hno (fun hc => by
    have := (MatchString_iff "foo=bar").mpr hc
    revert this
    decide)⟩

/-- Counterexample to C14 as stated: with body
`{"total_results":5,"next_page_token":"","items":[1]}` and query `foo=bar` the relation
`next` holds the link `?page_token=&foo=bar` after the call; it is not empty. -/
theorem ParseLinks_records_link_for_empty_token :
    ∃ r, ParseLinks Char.isAlphanum false { Path := "/domains", RawQuery := "foo=bar" }
          { Links := fun _ => []
            Body := .map [("total_results", .number 5), ("next_page_token", .str ""),
              ("items", .slice [.number 1])] } = .returned r ∧
      r.2.Links "next" = [{ Rel := "next", URI := "?page_token=&foo=bar" }] ∧
      r.2.Links "next" ≠ [] :=
  ⟨_, rfl, by decide, by decide⟩

/-- C15, as amended. For a mapping body with a non-null `total_results` (and a
`next_page_token` that is absent, null or a string), `ParseLinks` replaces the body with
the value of the first sequence-valued entry in the order in which the `range` loop visits
the entries of the map; that order is not sorted by key. -/
theorem ParseLinks_unwrap_first (letterOrDigit : Char → Bool) (base : URL)
    (resp : cli.Response) (pre post : List (String × GoAny)) (k : String) (xs : List GoAny)
    (hbody : resp.Body = .map (pre ++ (k, .slice xs) :: post))
    (htotal : (mapIndex (pre ++ (k, .slice xs) :: post) "total_results").isNil = false)
    (hkeys : ((pre ++ (k, GoAny.slice xs) :: post).map Prod.fst).Nodup)
    (hpre : ∀ kv ∈ pre, ∀ ys, kv.2 ≠ .slice ys)
    (htoken : (mapIndex (pre ++ (k, .slice xs) :: post) "next_page_token").isNil = true ∨
      ∃ t, mapIndex (pre ++ (k, .slice xs) :: post) "next_page_token" = .str t) :
    ∃ r, ParseLinks letterOrDigit false base resp = .returned r ∧ r.2.Body = .slice xs := by
  have hu : unwrappedBody (pre ++ (k, .slice xs) :: post) resp.Body = .slice xs := by
    simp only [unwrappedBody, unwrap_first pre post k xs hkeys hpre]
  rcases htoken with hnil | ⟨t, ht⟩
  · exact ⟨_, ParseLinks_nil_token letterOrDigit base resp _ hbody htotal hnil, hu⟩
  · exact ⟨_, ParseLinks_string_token letterOrDigit base resp _ t hbody htotal ht, hu⟩

/-- Witness of C15 as amended: the entries are visited in the order `total_results`,
`zeta`, `alpha`; the body becomes the value of `zeta`. -/
theorem ParseLinks_unwrap_first_witness :
    ∃ r, ParseLinks Char.isAlphanum false { Path := "/domains", RawQuery := "" }
          { Links := fun _ => []
            Body := .map [("total_results", .number 5), ("zeta", .slice [.number 1]),
              ("alpha", .slice [.number 2])] } = .returned r ∧
      r.2.Body = .slice [.number 1] :=
  ParseLinks_unwrap_first Char.isAlphanum { Path := "/domains", RawQuery := "" }
    { Links := fun _ => []
      Body := .map [("total_results", .number 5), ("zeta", .slice [.number 1]),
        ("alpha", .slice [.number 2])] }
    [("total_results", .number 5)] [("alpha", .slice [.number 2])] "zeta" [.number 1]
    rfl rfl (by decide) (by simp) (Or.inl rfl)

/-- Counterexample to C15 as stated: the same mapping, with the sequence-valued keys
`alpha` and `zeta`, gives the body of `zeta` when the loop visits `zeta` first and the body
of `alpha` when it visits `alpha` first; in the first run the body is not the value of the
smallest key. -/
theorem ParseLinks_unwrap_depends_on_order :
    (∃ r, ParseLinks Char.isAlphanum false { Path := "/domains", RawQuery := "" }
          { Links := fun _ => []
            Body := .map [("total_results", .number 5), ("zeta", .slice [.number 1]),
              ("alpha", .slice [.number 2])] } = .returned r ∧
      r.2.Body = .slice [.number 1]) ∧
    (∃ r, ParseLinks Char.isAlphanum false { Path := "/domains", RawQuery := "" }
          { Links := fun _ => []
            Body := .map [("total_results", .number 5), ("alpha", .slice [.number 2]),
              ("zeta", .slice [.number 1])] } = .returned r ∧
      r.2.Body = .slice [.number 2]) ∧
    stringLess "alpha" "zeta" = true ∧
    GoAny.slice [.number 1] ≠ GoAny.slice [.number 2] ∧
    List.Perm [("total_results", GoAny.number 5), ("zeta", .slice [.number 1]),
        ("alpha", .slice [.number 2])]
      [("total_results", GoAny.number 5), ("alpha", .slice [.number 2]),
        ("zeta", .slice [.number 1])] :=
  ⟨⟨_, rfl, rfl⟩, ⟨_, rfl, rfl⟩, by decide, by simp,
    List.Perm.cons _ (List.Perm.swap _ _ _)⟩

/-- C17. Body unwrap step: for a mapping body with a non-null `total_results`, the call
returns whenever `next_page_token` is absent, null or a string, and whenever it returns,
with or without a token: if exactly one entry of the mapping holds a sequence, the body
after the call is that sequence; if no entry holds a sequence, the body after the call is
the original mapping. -/
theorem ParseLinks_unwrap_step (letterOrDigit : Char → Bool) (base : URL)
    (resp : cli.Response) (b : List (String × GoAny))
    (hbody : resp.Body = .map b)
    (htotal : (mapIndex b "total_results").isNil = false)
    (hkeys : (b.map Prod.fst).Nodup) :
    (((mapIndex b "next_page_token").isNil = true ∨
        ∃ t, mapIndex b "next_page_token" = .str t) →
      ∃ r, ParseLinks letterOrDigit false base resp = .returned r) ∧
    ∀ r, ParseLinks letterOrDigit false base resp = .returned r →
      (∀ pre k xs post, b = pre ++ (k, .slice xs) :: post →
        (∀ kv ∈ pre ++ post, ∀ ys, kv.2 ≠ .slice ys) → r.2.Body = .slice xs) ∧
      ((∀ kv ∈ b, ∀ ys, kv.2 ≠ .slice ys) → r.2.Body = resp.Body) := by
  constructor
  · rintro (hnil | ⟨t, ht⟩)
    · exact ⟨_, ParseLinks_nil_token letterOrDigit base resp b hbody htotal hnil⟩
    · exact ⟨_, ParseLinks_string_token letterOrDigit base resp b t hbody htotal ht⟩
  · intro r hr
    have hb := (ParseLinks_returned_body letterOrDigit base resp b r hbody htotal hr).2
    constructor
    · intro pre k xs post hsplit hrest
      subst hsplit
      rw [hb, unwrappedBody,
        unwrap_first pre post k xs hkeys
          (fun kv hkv => hrest kv (List.mem_append_left _ hkv))]
    · intro hnone
      rw [hb, unwrappedBody, unwrap_none b _ hnone]

/-- Witness of C17: with a token and one sequence-valued entry the body becomes the
sequence; without a token and without a sequence-valued entry the body stays the mapping. -/
theorem ParseLinks_unwrap_step_witness :
    (∃ r, ParseLinks Char.isAlphanum false { Path := "/domains", RawQuery := "foo=bar" }
          { Links := fun _ => []
            Body := .map [("total_results", .number 5), ("next_page_token", .str "10"),
              ("items", .slice [.number 1, .number 2, .number 3])] } = .returned r ∧
      r.2.Body = .slice [.number 1, .number 2, .number 3]) ∧
    (∃ r, ParseLinks Char.isAlphanum false { Path := "/domains", RawQuery := "foo=bar" }
          { Links := fun _ => []
            Body := .map [("total_results", .number 0), ("note", .str "empty")] } =
          .returned r ∧
      r.2.Body = .map [("total_results", .number 0), ("note", .str "empty")]) := by
  constructor
  · have h := ParseLinks_unwrap_step Char.isAlphanum
      { Path := "/domains", RawQuery := "foo=bar" }
      { Links := fun _ => []
        Body := .map [("total_results", .number 5), ("next_page_token", .str "10"),
          ("items", .slice [.number 1, .number 2, .number 3])] }
      _ rfl rfl (by decide)
    obtain ⟨r, hr⟩ := h.1 (Or.inr ⟨"10", rfl⟩)
    exact ⟨r, hr, (h.2 r hr).1
      [("total_results", .number 5), ("next_page_token", .str "10")] "items" _ [] rfl
      (by simp)⟩
  · have h := ParseLinks_unwrap_step Char.isAlphanum
      { Path := "/domains", RawQuery := "foo=bar" }
      { Links := fun _ => []
        Body := .map [("total_results", .number 0), ("note", .str "empty")] }
      _ rfl rfl (by decide)
    obtain ⟨r, hr⟩ := h.1 (Or.inl rfl)
    exact ⟨r, hr, (h.2 r hr).2 (by simp)⟩

/-- C19. For a mapping body with a non-null `total_results` and a string `next_page_token`
`t`, the in-place replacement happens exactly when the query contains `page_token=`
immediately followed by a decimal digit.  Otherwise the token is prepended: the URI is
`?page_token=` ++ t ++ `&` ++ query, which holds one more occurrence of `page_token=` than
the query (exactly one more when `t` has no letter `p`), hence two `page_token` parameters
when the query already has one whose value does not start with a digit. -/
theorem ParseLinks_non_numeric_token (letterOrDigit : Char → Bool) (base : URL)
    (resp : cli.Response) (b : List (String × GoAny)) (t : String)
    (hbody : resp.Body = .map b)
    (htotal : (mapIndex b "total_results").isNil = false)
    (htoken : mapIndex b "next_page_token" = .str t) :
    ∃ uri : String,
      ParseLinks letterOrDigit false base resp =
        .returned (none,
          { Links := Function.update resp.Links "next"
              (resp.Links "next" ++ [{ Rel := "next", URI := uri }])
            Body := unwrappedBody b resp.Body }) ∧
      (HasPageToken base.RawQuery →
        uri = "?" ++ rePageToken.ReplaceAllString letterOrDigit base.RawQuery
          ("page_token=" ++ t)) ∧
      (¬ HasPageToken base.RawQuery →
        uri = "?page_token=" ++ t ++ "&" ++ base.RawQuery ∧
        countPageToken base.RawQuery.data + 1 ≤ countPageToken uri.data ∧
        (0 < countPageToken base.RawQuery.data → 2 ≤ countPageToken uri.data) ∧
        ((∀ c ∈ t.data, c ≠ 'p') →
          countPageToken uri.data = countPageToken base.RawQuery.data + 1)) := by
  refine ⟨_, ParseLinks_string_token letterOrDigit base resp b t hbody htotal htoken, ?_, ?_⟩
  · intro h
    rw [if_pos ((MatchString_iff _).mpr h)]
  · intro h
    have hm : ¬ rePageToken.MatchString base.RawQuery = true := fun hm =>
      h ((MatchString_iff _).mp hm)
    have huri : "?" ++ ("page_token=" ++ t ++ "&" ++ base.RawQuery) =
        "?page_token=" ++ t ++ "&" ++ base.RawQuery := by
      simp only [← String.append_assoc]
      rfl
    rw [if_neg hm, huri, countPageToken_prepended]
    have hle := countPageToken_le_append (t.data ++ ['&']) base.RawQuery.data
    have hshape : t.data ++ ['&'] ++ base.RawQuery.data = t.data ++ '&' :: base.RawQuery.data := by
      simp
    rw [hshape] at hle
    refine ⟨rfl, by omega, fun _ => by omega, ?_⟩
    intro hp
    have hskip := countPageToken_skip (t.data ++ ['&']) base.RawQuery.data (by
      intro c hc
      rcases List.mem_append.mp hc with h1 | h1
      · exact hp c h1
      · have : c = '&' := by simpa using h1
        rw [this]
        decide)
    rw [hshape] at hskip
    omega

/-- Witness of C19: query `page_token=abc&foo=bar` with token `20` gives the URI
`?page_token=20&page_token=abc&foo=bar`, which holds two `page_token` parameters. -/
theorem ParseLinks_non_numeric_token_witness :
    ∃ uri : String,
      ParseLinks Char.isAlphanum false
          { Path := "/domains", RawQuery := "page_token=abc&foo=bar" }
          { Links := fun _ => []
            Body := .map [("total_results", .number 5), ("next_page_token", .str "20"),
              ("items", .slice [.number 1])] } =
        .returned (none,
          { Links := Function.update (fun _ => []) "next" [{ Rel := "next", URI := uri }]
            Body := .slice [.number 1] }) ∧
      uri = "?page_token=20&page_token=abc&foo=bar" ∧
      countPageToken uri.data = 2 := by
  obtain ⟨uri, h, _, hno⟩ := ParseLinks_non_numeric_token Char.isAlphanum
    { Path := "/domains", RawQuery := "page_token=abc&foo=bar" }
    { Links := fun _ => []
      Body := .map [("total_results", .number 5), ("next_page_token", .str "20"),
        ("items", .slice [.number 1])] }
    _ "20" rfl rfl rfl
  have hq : ¬ HasPageToken "page_token=abc&foo=bar" := fun hc => by
    have := (MatchString_iff "page_token=abc&foo=bar").mpr hc
    revert this
    decide
  obtain ⟨huri, _, _, hexact⟩ := hno hq
  exact ⟨uri, h, huri, (hexact (by decide)).trans (by decide)⟩

/-! ## `openapiOperation`: the fields of the descriptor -/

theorem openapiOperation_fields (lib : Lib) (method : String) (uriTemplate : URL)
    (path : v2.PathItem) (op : v2.Operation) (d : cli.Operation)
    (hret : openapiOperation lib method uriTemplate path op = .returned d) :
    ∃ ps composed, classifyParams (combineParams op.Parameters path.Parameters) noParams =
        .returned ps ∧
      describeResponses lib op (describeParams lib ps
        (getExt op.Extensions ExtDescription op.Description)) = .returned composed ∧
      d.Long = stringsTrim composed "\n" ++ "\n" ∧
      d.PathParams = ps.pathParams ∧ d.QueryParams = ps.queryParams ∧
      d.HeaderParams = ps.headerParams := by
  cases hc : classifyParams (combineParams op.Parameters path.Parameters) noParams with
  | panicked =>
    simp only [noParams] at hc
    simp only [openapiOperation, hc] at hret
    cases hret
  | returned ps =>
    have hc' := hc
    simp only [noParams] at hc'
    cases hR : op.Responses with
    | none =>
      simp only [openapiOperation, hc', describeResponses, hR] at hret
      cases hret
    | some codes =>
      simp only [openapiOperation, hc', describeResponses, hR, Outcome.returned.injEq] at hret
      subst hret
      refine ⟨ps, _, rfl, ?_, rfl, rfl, rfl, rfl⟩
      simp only [describeResponses, hR]

theorem operationName_override (lib : Lib) (method : String) (uriTemplate : URL)
    (op : v2.Operation) (h : getExt op.Extensions ExtName "" ≠ "") :
    operationName lib method uriTemplate op =
      (getExt op.Extensions ExtName "", getExtSlice op.Extensions ExtAliases []) := by
  unfold operationName
  simp only [h, ne_eq, not_false_eq_true, if_true]

theorem operationName_canonical (lib : Lib) (method : String) (uriTemplate : URL)
    (op : v2.Operation) (h : getExt op.Extensions ExtName "" = "") :
    operationName lib method uriTemplate op =
      (canonicalName lib method uriTemplate op,
        getExtSlice op.Extensions ExtAliases [] ++
          (if lib.slugMake op.OperationId ≠ "" ∧
              lib.slugMake op.OperationId ≠ canonicalName lib method uriTemplate op then
            [lib.slugMake op.OperationId]
          else [])) := by
  unfold operationName canonicalName
  simp only [h, ne_eq, not_true_eq_false, if_false]
  split_ifs <;> simp

theorem getExt_string_stored (m : List (String × GoAny)) (k s d : String)
    (h : m.lookup k = some (.str s)) : getExt (some m) k d = s := by
  simp [getExt, mapIndex, h, GoAny.isNil, GoType.assert]

theorem getExt_string_cases (v : ExtBag) (k : String) :
    getExt v k "" = "" ∨
      ∃ m s, v = some m ∧ m.lookup k = some (.str s) ∧ s ≠ "" ∧ getExt v k "" = s := by
  cases v with
  | none => exact Or.inl rfl
  | some m =>
    cases hl : m.lookup k with
    | none => left; simp [getExt, mapIndex, hl, GoAny.isNil]
    | some i =>
      cases i with
      | str s =>
        by_cases hs : s = ""
        · left
          rw [getExt_string_stored m k s "" hl, hs]
        · exact Or.inr ⟨m, s, rfl, hl, hs, getExt_string_stored m k s "" hl⟩
      | _ => left; simp [getExt, mapIndex, hl, GoAny.isNil, GoType.assert]

theorem getExtSlice_strings (m : List (String × GoAny)) (k : String) (as : List String)
    (h : m.lookup k = some (.slice (as.map GoAny.str))) :
    getExtSlice (some m) k ([] : List String) = as := by
  cases as with
  | nil => simp [getExtSlice, mapIndex, h, GoAny.isNil]
  | cons a as =>
    simp only [getExtSlice, mapIndex, h, GoAny.isNil]
    simp only [List.map_cons, List.length_cons, List.length_map, gt_iff_lt, Nat.zero_lt_succ,
      if_true, Bool.not_false]
    have hloop := getExtSlice_loop (T := String) ((a :: as).map GoAny.str)
      ((a :: as).map GoAny.str).length (Nat.le_refl _)
    simp only [List.map_cons, List.length_cons, List.length_map] at hloop
    rw [hloop]
    have hid : ((assertOrZero : GoAny → String) ∘ GoAny.str) = id := funext (fun _ => rfl)
    have ha : (assertOrZero (GoAny.str a) : String) = a := rfl
    simp [hid, ha]

/-- C11, as amended. For an operation that declares responses and whose parameters can be
typed, so that a descriptor is produced, with no `x-cli-name` override, whose legacy slug
name is non-empty and differs from the canonical name, and whose `x-cli-aliases` extension
lists the aliases `a1..an`: the descriptor's alias list is `a1..an` in order followed by
the legacy slug name.  The backward-compatibility alias comes after the extension
aliases. -/
theorem openapiOperation_alias_order (lib : Lib) (method : String) (uriTemplate : URL)
    (path : v2.PathItem) (op : v2.Operation) (m : List (String × GoAny))
    (as : List String)
    (hres : ParamsResolved (combineParams op.Parameters path.Parameters))
    (hresp : op.Responses ≠ none)
    (hext : op.Extensions = some m)
    (hno : getExt op.Extensions ExtName "" = "")
    (hal : m.lookup ExtAliases = some (.slice (as.map GoAny.str)))
    (hslug : lib.slugMake op.OperationId ≠ "")
    (hdiff : lib.slugMake op.OperationId ≠ canonicalName lib method uriTemplate op) :
    ∃ d, openapiOperation lib method uriTemplate path op = .returned d ∧
      d.Aliases = as ++ [lib.slugMake op.OperationId] := by
  obtain ⟨d, hd⟩ := openapiOperation_returns lib method uriTemplate path op hres hresp
  refine ⟨d, hd, ?_⟩
  rw [(openapiOperation_name lib method uriTemplate path op d hd).2,
    operationName_canonical lib method uriTemplate op hno, hext,
    getExtSlice_strings m ExtAliases as hal]
  simp [hslug, hdiff]

/-- Witness of C11 as amended: identifier `listUsers` with `x-cli-aliases` `["ls", "users"]`
gives the aliases `ls`, `users`, `listusers`. -/
theorem openapiOperation_alias_order_witness :
    ∃ d, openapiOperation sampleLib "GET" { Path := "/users", RawQuery := "" } emptyPath
        (extendedOperation "listUsers"
          (some [("x-cli-aliases", .slice [.str "ls", .str "users"])])) = .returned d ∧
      d.Aliases = ["ls", "users", "listusers"] := by
  obtain ⟨d, hd, h⟩ := openapiOperation_alias_order sampleLib "GET"
    { Path := "/users", RawQuery := "" } emptyPath
    (extendedOperation "listUsers"
      (some [("x-cli-aliases", .slice [.str "ls", .str "users"])]))
    [("x-cli-aliases", .slice [.str "ls", .str "users"])] ["ls", "users"]
    (fun p hp => by cases hp) (fun h => by cases h) rfl rfl rfl (by decide) (by decide)
  exact ⟨d, hd, h.trans (by decide)⟩

/-- Counterexample to C11 as stated: for identifier `listUsers` with `x-cli-aliases`
`["ls", "users"]` the legacy slug `listusers` differs from the name `list-users`, and the
alias list is `ls`, `users`, `listusers`, not `listusers`, `ls`, `users`. -/
theorem openapiOperation_legacy_alias_last :
    ∃ d, openapiOperation sampleLib "GET" { Path := "/users", RawQuery := "" } emptyPath
        (extendedOperation "listUsers"
          (some [("x-cli-aliases", .slice [.str "ls", .str "users"])])) = .returned d ∧
      d.Name = "list-users" ∧
      sampleLib.slugMake "listUsers" = "listusers" ∧
      d.Aliases = ["ls", "users", "listusers"] ∧
      d.Aliases ≠ "listusers" :: ["ls", "users"] :=
  ⟨_, rfl, by decide, by decide, by decide, by decide⟩

/-- C12. Name override and legacy alias, for an operation that declares responses and
whose parameters can be typed, so that a descriptor is produced: if `x-cli-name` holds a
non-empty string, the descriptor's name is that string and the aliases are exactly the
`x-cli-aliases` values; otherwise the name is the canonical hyphen-case name and the
aliases are the `x-cli-aliases` values followed by the legacy slug of the operation
identifier if and only if that slug is non-empty and differs from the canonical name.  The
name is never the legacy slug in place of these.  The `x-cli-aliases` values are what
`getExtSlice` reads: the listed strings `a1..an` themselves when the extension lists
strings. -/
theorem openapiOperation_naming (lib : Lib) (method : String) (uriTemplate : URL)
    (path : v2.PathItem) (op : v2.Operation)
    (hres : ParamsResolved (combineParams op.Parameters path.Parameters))
    (hresp : op.Responses ≠ none) :
    ∃ d, openapiOperation lib method uriTemplate path op = .returned d ∧
      (∀ m s, op.Extensions = some m → m.lookup ExtName = some (.str s) → s ≠ "" →
        d.Name = s ∧ d.Aliases = getExtSlice op.Extensions ExtAliases []) ∧
      ((¬ ∃ m s, op.Extensions = some m ∧ m.lookup ExtName = some (.str s) ∧ s ≠ "") →
        d.Name = canonicalName lib method uriTemplate op ∧
        d.Aliases = getExtSlice op.Extensions ExtAliases [] ++
          (if lib.slugMake op.OperationId ≠ "" ∧
              lib.slugMake op.OperationId ≠ canonicalName lib method uriTemplate op then
            [lib.slugMake op.OperationId]
          else [])) ∧
      (∀ m as, op.Extensions = some m →
        m.lookup ExtAliases = some (.slice (as.map GoAny.str)) →
        getExtSlice op.Extensions ExtAliases [] = as) := by
  obtain ⟨d, hd⟩ := openapiOperation_returns lib method uriTemplate path op hres hresp
  obtain ⟨hname, halias⟩ := openapiOperation_name lib method uriTemplate path op d hd
  refine ⟨d, hd, ?_, ?_, fun m as hext hal => by
    rw [hext]
    exact getExtSlice_strings m ExtAliases as hal⟩
  · intro m s hext hl hs
    have hov : getExt op.Extensions ExtName "" = s := by
      rw [hext]
      exact getExt_string_stored m ExtName s "" hl
    have hne : getExt op.Extensions ExtName "" ≠ "" := by
      rw [hov]
      exact hs
    rw [hname, halias, operationName_override lib method uriTemplate op hne, hov]
    exact ⟨rfl, rfl⟩
  · intro hnone
    have hov : getExt op.Extensions ExtName "" = "" := by
      rcases getExt_string_cases op.Extensions ExtName with h | ⟨m, s, hext, hl, hs, _⟩
      · exact h
      · exact absurd ⟨m, s, hext, hl, hs⟩ hnone
    rw [hname, halias, operationName_canonical lib method uriTemplate op hov]
    exact ⟨rfl, rfl⟩

/-- Witness of C12: with `x-cli-name` `users` the name is `users` and the aliases are those
of `x-cli-aliases`; without it the name of `listUsers` is `list-users` and the legacy slug
`listusers` is the only alias. -/
theorem openapiOperation_naming_witness :
    (∃ d, openapiOperation sampleLib "GET" { Path := "/users", RawQuery := "" } emptyPath
        (extendedOperation "listUsers"
          (some [("x-cli-name", .str "users"), ("x-cli-aliases", .slice [.str "ls"])])) =
          .returned d ∧
      d.Name = "users" ∧ d.Aliases = ["ls"]) ∧
    (∃ d, openapiOperation sampleLib "GET" { Path := "/users", RawQuery := "" } emptyPath
        (extendedOperation "listUsers" none) = .returned d ∧
      d.Name = "list-users" ∧ d.Aliases = ["listusers"]) := by
  constructor
  · obtain ⟨d, hd, h1, _⟩ := openapiOperation_naming sampleLib "GET"
      { Path := "/users", RawQuery := "" } emptyPath
      (extendedOperation "listUsers"
        (some [("x-cli-name", .str "users"), ("x-cli-aliases", .slice [.str "ls"])]))
      (fun p hp => by cases hp) (fun h => by cases h)
    obtain ⟨hn, ha⟩ := h1 _ "users" rfl rfl (by decide)
    exact ⟨d, hd, hn, ha.trans (by decide)⟩
  · obtain ⟨d, hd, _, h2, _⟩ := openapiOperation_naming sampleLib "GET"
      { Path := "/users", RawQuery := "" } emptyPath (extendedOperation "listUsers" none)
      (fun p hp => by cases hp) (fun h => by cases h)
    obtain ⟨hn, ha⟩ := h2 (by
      rintro ⟨m, s, hext, _⟩
      cases hext)
    exact ⟨d, hd, hn.trans (by decide), ha.trans (by decide)⟩

/-! ## `openapiOperation`: framing of the long description -/

theorem trim_decompose (p : Char → Bool) (l : List Char) :
    ∃ a b, l = a ++ (l.dropWhile p).rdropWhile p ++ b ∧ (∀ c ∈ a, p c = true) ∧
      (∀ c ∈ b, p c = true) ∧
      (∀ c, ((l.dropWhile p).rdropWhile p).head? = some c → p c = false) ∧
      (∀ c, ((l.dropWhile p).rdropWhile p).getLast? = some c → p c = false) := by
  have hsplit : ∀ l' : List Char, l' = l'.rdropWhile p ++ l'.rtakeWhile p := by
    intro l'
    have h := List.takeWhile_append_dropWhile p l'.reverse
    have h2 := congrArg List.reverse h
    rw [List.reverse_append, List.reverse_reverse] at h2
    exact h2.symm
  refine ⟨l.takeWhile p, (l.dropWhile p).rtakeWhile p, ?_, ?_, ?_, ?_, ?_⟩
  · rw [List.append_assoc, ← hsplit, List.takeWhile_append_dropWhile]
  · intro c hc
    exact List.mem_takeWhile_imp hc
  · intro c hc
    exact List.mem_rtakeWhile_imp hc
  · intro c hc
    obtain ⟨r, hr⟩ := List.rdropWhile_prefix p (l := l.dropWhile p)
    have hhead : (l.dropWhile p).head? = some c := by
      rw [← hr, List.head?_append, hc]
      rfl
    have := List.head?_dropWhile_not p l
    rw [hhead] at this
    simpa using this
  · intro c hc
    have hne : (l.dropWhile p).rdropWhile p ≠ [] := by
      intro h0
      rw [h0] at hc
      cases hc
    have := List.rdropWhile_last_not p (l.dropWhile p) hne
    rw [List.getLast?_eq_getLast _ hne] at hc
    cases hc
    simpa using this

theorem stringsTrim_newline_data (s : String) :
    ∃ a b, s.data = a ++ (stringsTrim s "\n").data ++ b ∧ (∀ c ∈ a, c = '\n') ∧
      (∀ c ∈ b, c = '\n') ∧
      (stringsTrim s "\n").data.head? ≠ some '\n' ∧
      (stringsTrim s "\n").data.getLast? ≠ some '\n' := by
  have hp : ∀ c : Char, ("\n".data.contains c) = true ↔ c = '\n' := by
    intro c
    show (['\n'].contains c) = true ↔ c = '\n'
    simp
  obtain ⟨a, b, hs, ha, hb, hh, hl⟩ :=
    trim_decompose (fun c => "\n".data.contains c) s.data
  refine ⟨a, b, hs, fun c hc => (hp c).mp (ha c hc), fun c hc => (hp c).mp (hb c hc), ?_, ?_⟩
  · intro h
    have := hh '\n' h
    rw [(hp '\n').mpr rfl] at this
    cases this
  · intro h
    have := hl '\n' h
    rw [(hp '\n').mpr rfl] at this
    cases this

/-- C13. Long description framing: for an operation that declares responses and whose
parameters can be typed, so that a descriptor is produced, the `longDescription` of the
descriptor is the composed text with all leading and trailing newlines removed, followed
by one newline.  Hence its last character is a newline, the character before it (if any)
is not a newline, and it begins with a newline only when it is exactly one newline. -/
theorem openapiOperation_long_framing (lib : Lib) (method : String) (uriTemplate : URL)
    (path : v2.PathItem) (op : v2.Operation)
    (hres : ParamsResolved (combineParams op.Parameters path.Parameters))
    (hresp : op.Responses ≠ none) :
    ∃ d ps composed, openapiOperation lib method uriTemplate path op = .returned d ∧
      classifyParams (combineParams op.Parameters path.Parameters) noParams = .returned ps ∧
      describeResponses lib op (describeParams lib ps
        (getExt op.Extensions ExtDescription op.Description)) = .returned composed ∧
      (∃ a t b, composed.data = a ++ t ++ b ∧
        (∀ c ∈ a, c = '\n') ∧ (∀ c ∈ b, c = '\n') ∧
        t.head? ≠ some '\n' ∧ t.getLast? ≠ some '\n' ∧
        d.Long.data = t ++ ['\n']) ∧
      d.Long.data.getLast? = some '\n' ∧
      (1 < d.Long.data.length → d.Long.data.dropLast.getLast? ≠ some '\n') ∧
      (d.Long.data.head? = some '\n' → d.Long = "\n") := by
  obtain ⟨d, hd⟩ := openapiOperation_returns lib method uriTemplate path op hres hresp
  obtain ⟨ps, composed, hps, hcomp, hlong, _⟩ :=
    openapiOperation_fields lib method uriTemplate path op d hd
  obtain ⟨a, b, hs, ha, hb, hh, hl⟩ := stringsTrim_newline_data composed
  have hdata : d.Long.data = (stringsTrim composed "\n").data ++ ['\n'] := by
    rw [hlong, String.data_append]
  refine ⟨d, ps, composed, hd, hps, hcomp, ⟨a, _, b, hs, ha, hb, hh, hl, hdata⟩, ?_, ?_, ?_⟩
  · rw [hdata, List.getLast?_concat]
  · intro _
    rw [hdata, List.dropLast_concat]
    exact hl
  · intro hhead
    rw [hdata] at hhead
    have hnil : (stringsTrim composed "\n").data = [] := by
      cases ht : (stringsTrim composed "\n").data with
      | nil => rfl
      | cons c cs =>
        rw [ht] at hhead hh
        simp only [List.cons_append, List.head?_cons, Option.some.injEq] at hhead
        rw [hhead] at hh
        exact absurd rfl hh
    rw [hnil] at hdata
    exact String.ext hdata

/-- Witness of C13: the description `\n\nList users\n\n` gives the long description
`List users\n`; the description `\n` gives `\n`. -/
theorem openapiOperation_long_framing_witness :
    (∃ d, openapiOperation sampleLib "GET" { Path := "/users", RawQuery := "" } emptyPath
        (extendedOperation "listUsers"
          (some [("x-cli-description", .str "\n\nList users\n\n")])) = .returned d ∧
      d.Long = "List users\n" ∧
      d.Long.data.getLast? = some '\n' ∧
      (1 < d.Long.data.length → d.Long.data.dropLast.getLast? ≠ some '\n') ∧
      (d.Long.data.head? = some '\n' → d.Long = "\n")) ∧
    (∃ d, openapiOperation sampleLib "GET" { Path := "/users", RawQuery := "" } emptyPath
        (extendedOperation "listUsers" (some [("x-cli-description", .str "\n")])) =
          .returned d ∧
      d.Long = "\n") := by
  constructor
  · obtain ⟨d, _, _, hd, _, _, _, h1, h2, h3⟩ := openapiOperation_long_framing sampleLib "GET"
      { Path := "/users", RawQuery := "" } emptyPath
      (extendedOperation "listUsers"
        (some [("x-cli-description", .str "\n\nList users\n\n")]))
      (fun p hp => by cases hp) (fun h => by cases h)
    have hval : openapiOperation sampleLib "GET" { Path := "/users", RawQuery := "" }
        emptyPath
        (extendedOperation "listUsers"
          (some [("x-cli-description", .str "\n\nList users\n\n")])) = .returned d →
        d.Long = "List users\n" := by
      intro h
      have h0 : openapiOperation sampleLib "GET" { Path := "/users", RawQuery := "" }
          emptyPath
          (extendedOperation "listUsers"
            (some [("x-cli-description", .str "\n\nList users\n\n")])) =
          .returned _ := rfl
      rw [h0] at h
      cases h
      decide
    exact ⟨d, hd, hval hd, h1, h2, h3⟩
  · obtain ⟨d, _, _, hd, _, _, _, _, _, h3⟩ := openapiOperation_long_framing sampleLib "GET"
      { Path := "/users", RawQuery := "" } emptyPath
      (extendedOperation "listUsers" (some [("x-cli-description", .str "\n")]))
      (fun p hp => by cases hp) (fun h => by cases h)
    refine ⟨d, hd, h3 ?_⟩
    have h0 : openapiOperation sampleLib "GET" { Path := "/users", RawQuery := "" }
        emptyPath
        (extendedOperation "listUsers" (some [("x-cli-description", .str "\n")])) =
        .returned _ := rfl
    rw [h0] at hd
    cases hd
    decide

/-! ## `openapiOperation`: the classified parameters -/

theorem keptIn_cons_ignored (loc : String) (p : v2.Parameter) (rest : List v2.Parameter)
    (h : getExt p.Extensions ExtIgnore false = true) :
    keptIn loc (p :: rest) = keptIn loc rest := by
  simp [keptIn, List.filter_cons, h]

theorem keptIn_cons_kept (loc : String) (p : v2.Parameter) (rest : List v2.Parameter)
    (h : ¬ getExt p.Extensions ExtIgnore false = true) (hloc : p.In = loc) :
    keptIn loc (p :: rest) = p :: keptIn loc rest := by
  simp [keptIn, List.filter_cons, h, hloc]

theorem keptIn_cons_other (loc : String) (p : v2.Parameter) (rest : List v2.Parameter)
    (hloc : p.In ≠ loc) : keptIn loc (p :: rest) = keptIn loc rest := by
  simp [keptIn, List.filter_cons, hloc]

theorem classifyParams_names (params : List v2.Parameter) (acc ps : paramLists)
    (h : classifyParams params acc = .returned ps) :
    ps.pathParams.map (fun x => x.Name) =
        acc.pathParams.map (fun x => x.Name) ++ (keptIn "path" params).map (fun p => p.Name) ∧
      ps.queryParams.map (fun x => x.Name) =
        acc.queryParams.map (fun x => x.Name) ++
          (keptIn "query" params).map (fun p => p.Name) ∧
      ps.headerParams.map (fun x => x.Name) =
        acc.headerParams.map (fun x => x.Name) ++
          (keptIn "header" params).map (fun p => p.Name) := by
  induction params generalizing acc with
  | nil =>
    simp only [classifyParams, Outcome.returned.injEq] at h
    subst h
    simp [keptIn]
  | cons p rest ih =>
    rw [classifyParams] at h
    by_cases hi : getExt p.Extensions ExtIgnore false = true
    · rw [if_pos hi] at h
      simp only [keptIn_cons_ignored _ p rest hi]
      exact ih acc h
    · rw [if_neg hi] at h
      cases hr : parameterType p with
      | panicked =>
        simp only [hr] at h
        cases h
      | returned r =>
        obtain ⟨typ, schema, dflt, exampleVal⟩ := r
        simp only [hr] at h
        by_cases h1 : p.In = "path"
        · rw [if_pos h1] at h
          have h2 : p.In ≠ "query" := by rw [h1]; decide
          have h3 : p.In ≠ "header" := by rw [h1]; decide
          have := ih _ h
          simp only [keptIn_cons_kept _ p rest hi h1, keptIn_cons_other _ p rest h2,
            keptIn_cons_other _ p rest h3]
          simpa using this
        · rw [if_neg h1] at h
          by_cases h2 : p.In = "query"
          · rw [if_pos h2] at h
            have h3 : p.In ≠ "header" := by rw [h2]; decide
            have := ih _ h
            simp only [keptIn_cons_kept _ p rest hi h2, keptIn_cons_other _ p rest h1,
              keptIn_cons_other _ p rest h3]
            simpa using this
          · rw [if_neg h2] at h
            by_cases h3 : p.In = "header"
            · rw [if_pos h3] at h
              have := ih _ h
              simp only [keptIn_cons_kept _ p rest hi h3, keptIn_cons_other _ p rest h1,
                keptIn_cons_other _ p rest h2]
              simpa using this
            · rw [if_neg h3] at h
              have := ih _ h
              simp only [keptIn_cons_other _ p rest h1, keptIn_cons_other _ p rest h2,
                keptIn_cons_other _ p rest h3]
              exact this

theorem openapiOperation_param_names (lib : Lib) (method : String) (uriTemplate : URL)
    (path : v2.PathItem) (op : v2.Operation) (d : cli.Operation)
    (hret : openapiOperation lib method uriTemplate path op = .returned d) :
    d.PathParams.map (fun x => x.Name) =
        (keptIn "path" (combineParams op.Parameters path.Parameters)).map (fun p => p.Name) ∧
      d.QueryParams.map (fun x => x.Name) =
        (keptIn "query" (combineParams op.Parameters path.Parameters)).map
          (fun p => p.Name) ∧
      d.HeaderParams.map (fun x => x.Name) =
        (keptIn "header" (combineParams op.Parameters path.Parameters)).map
          (fun p => p.Name) := by
  obtain ⟨ps, _, hps, _, _, hp, hq, hh⟩ :=
    openapiOperation_fields lib method uriTemplate path op d hret
  have := classifyParams_names _ _ _ hps
  rw [hp, hq, hh]
  simpa [noParams] using this

theorem keptIn_mem (loc : String) (params : List v2.Parameter) (p : v2.Parameter)
    (h : p ∈ keptIn loc params) :
    p ∈ params ∧ getExt p.Extensions ExtIgnore false = false ∧ p.In = loc := by
  unfold keptIn at h
  rw [List.mem_filter] at h
  refine ⟨h.1, ?_, ?_⟩
  · cases hg : getExt p.Extensions ExtIgnore false with
    | false => rfl
    | true =>
      have := h.2
      simp [hg] at this
  · have := h.2
    simp only [Bool.and_eq_true, decide_eq_true_eq] at this
    exact this.2

theorem keptIn_names_nodup (loc : String) (params : List v2.Parameter)
    (h : (params.map (fun p => (p.Name, p.In))).Nodup) :
    ((keptIn loc params).map (fun p => p.Name)).Nodup := by
  have hsub : ((keptIn loc params).map (fun p => (p.Name, p.In))).Nodup :=
    List.Nodup.sublist (List.Sublist.map _ (List.filter_sublist _)) h
  have hmap : (keptIn loc params).map (fun p => (p.Name, p.In)) =
      ((keptIn loc params).map (fun p => p.Name)).map (fun n => (n, loc)) := by
    rw [List.map_map]
    apply List.map_congr_left
    intro p hp
    simp [(keptIn_mem loc params p hp).2.2]
  rw [hmap] at hsub
  exact List.Nodup.of_map _ hsub

theorem combineParams_pairs_nodup (opParams pathParams : List v2.Parameter)
    (hop : (opParams.map (fun p => (p.Name, p.In))).Nodup)
    (hpath : (pathParams.map (fun p => (p.Name, p.In))).Nodup) :
    ((combineParams opParams pathParams).map (fun p => (p.Name, p.In))).Nodup := by
  rw [combineParams_eq, List.map_append, List.nodup_append]
  refine ⟨hop, List.Nodup.sublist (List.Sublist.map _ (List.filter_sublist _)) hpath, ?_⟩
  intro x hx1 hx2
  obtain ⟨o, ho, rfl⟩ := List.mem_map.mp hx1
  obtain ⟨q, hq, hqo⟩ := List.mem_map.mp hx2
  rw [List.mem_filter] at hq
  have hnot : q.Name ∉ opParams.map (fun o => o.Name) := by simpa using hq.2
  apply hnot
  have hname : q.Name = o.Name := congrArg Prod.fst hqo
  rw [hname]
  exact List.mem_map.mpr ⟨o, ho, rfl⟩

/-- C16, as amended. For every operation and path item in which neither the operation's
own list nor the path item's own list declares the same name twice with the same location
(the operation declaring responses and the parameters being typable, so that a descriptor
is produced), each of the output
sequences `pathParams`, `queryParams` and `headerParams` contains no two descriptors with
the same name. -/
theorem openapiOperation_unique_names (lib : Lib) (method : String) (uriTemplate : URL)
    (path : v2.PathItem) (op : v2.Operation)
    (hres : ParamsResolved (combineParams op.Parameters path.Parameters))
    (hresp : op.Responses ≠ none)
    (hop : (op.Parameters.map (fun p => (p.Name, p.In))).Nodup)
    (hpath : (path.Parameters.map (fun p => (p.Name, p.In))).Nodup) :
    ∃ d, openapiOperation lib method uriTemplate path op = .returned d ∧
      (d.PathParams.map (fun x => x.Name)).Nodup ∧
      (d.QueryParams.map (fun x => x.Name)).Nodup ∧
      (d.HeaderParams.map (fun x => x.Name)).Nodup := by
  obtain ⟨d, hd⟩ := openapiOperation_returns lib method uriTemplate path op hres hresp
  obtain ⟨hp, hq, hh⟩ := openapiOperation_param_names lib method uriTemplate path op d hd
  have hc := combineParams_pairs_nodup op.Parameters path.Parameters hop hpath
  refine ⟨d, hd, ?_, ?_, ?_⟩
  · rw [hp]
    exact keptIn_names_nodup _ _ hc
  · rw [hq]
    exact keptIn_names_nodup _ _ hc
  · rw [hh]
    exact keptIn_names_nodup _ _ hc

/-- Witness of C16 as amended: the operation declares `id` in the query and in the path,
the path item declares `id` in the path and `limit` in the query. -/
theorem openapiOperation_unique_names_witness :
    ∃ d, openapiOperation sampleLib "GET" { Path := "/users", RawQuery := "" }
        { Parameters := [plainParameter "id" "path" none, plainParameter "limit" "query" none]
          Extensions := none }
        (parameterOperation
          [plainParameter "id" "query" none, plainParameter "id" "path" none]) =
          .returned d ∧
      (d.PathParams.map (fun x => x.Name)).Nodup ∧
      (d.QueryParams.map (fun x => x.Name)).Nodup ∧
      (d.HeaderParams.map (fun x => x.Name)).Nodup :=
  openapiOperation_unique_names sampleLib "GET" { Path := "/users", RawQuery := "" }
    { Parameters := [plainParameter "id" "path" none, plainParameter "limit" "query" none]
      Extensions := none }
    (parameterOperation [plainParameter "id" "query" none, plainParameter "id" "path" none])
    (by
      intro p hp _
      rw [combineParams_eq] at hp
      simp [parameterOperation, plainParameter] at hp
      rcases hp with rfl | rfl | rfl <;> exact ⟨_, rfl⟩)
    (fun h => by cases h) (by decide) (by decide)

/-- Counterexample to C16 as stated: the operation's own list declares the query parameter
`id` twice; both declarations are classified, and `queryParams` holds two descriptors named
`id`. -/
theorem openapiOperation_duplicate_names :
    ∃ d, openapiOperation sampleLib "GET" { Path := "/users", RawQuery := "" } emptyPath
        (parameterOperation
          [plainParameter "id" "query" none, plainParameter "id" "query" none]) =
          .returned d ∧
      d.QueryParams.map (fun x => x.Name) = ["id", "id"] ∧
      ¬ (d.QueryParams.map (fun x => x.Name)).Nodup :=
  ⟨_, rfl, rfl, by decide⟩

theorem keptIn_append (loc : String) (xs ys : List v2.Parameter) :
    keptIn loc (xs ++ ys) = keptIn loc xs ++ keptIn loc ys := by
  simp [keptIn, List.filter_append]

theorem keptIn_combine_names (loc : String) (opParams pathParams : List v2.Parameter) :
    (keptIn loc (combineParams opParams pathParams)).map (fun p => p.Name) =
      (keptIn loc opParams).map (fun p => p.Name) ++
        (keptIn loc (pathParams.filter
          (fun p => decide (p.Name ∉ opParams.map (fun o => o.Name))))).map
          (fun p => p.Name) := by
  rw [combineParams_eq, keptIn_append, List.map_append]

theorem keptIn_shadowed (loc n : String) (opParams pathParams : List v2.Parameter)
    (hdecl : n ∈ opParams.map (fun o => o.Name))
    (hign : ∀ o ∈ opParams, o.Name = n → getExt o.Extensions ExtIgnore false = true) :
    n ∉ (keptIn loc (combineParams opParams pathParams)).map (fun p => p.Name) := by
  rw [keptIn_combine_names, List.mem_append]
  rintro (h | h)
  · obtain ⟨o, ho, hn⟩ := List.mem_map.mp h
    obtain ⟨hmem, hnot, _⟩ := keptIn_mem loc opParams o ho
    rw [hign o hmem hn] at hnot
    cases hnot
  · obtain ⟨q, hq, hn⟩ := List.mem_map.mp h
    obtain ⟨hmem, _, _⟩ := keptIn_mem loc _ q hq
    rw [List.mem_filter] at hmem
    have hnot : q.Name ∉ opParams.map (fun o => o.Name) := by simpa using hmem.2
    rw [hn] at hnot
    exact hnot hdecl

/-- C18. Ignored parameters and shadowing, for an operation that declares responses and
whose parameters can be typed, so that a descriptor is produced: each output sequence of
`openapiOperation` is made of the operation-level parameters of its location that are not flagged
`x-cli-ignore`, followed by the path-level parameters of that location that are not
flagged and whose name does not occur at operation level; so every descriptor comes from a
merged parameter that is not flagged.  When a name is declared at operation level and
flagged there, no output sequence holds a descriptor of that name, whatever the path item
declares under it: the ignored declaration still shadows the path-level one. -/
theorem openapiOperation_ignored_parameters (lib : Lib) (method : String)
    (uriTemplate : URL) (path : v2.PathItem) (op : v2.Operation)
    (hres : ParamsResolved (combineParams op.Parameters path.Parameters))
    (hresp : op.Responses ≠ none) :
    ∃ d, openapiOperation lib method uriTemplate path op = .returned d ∧
      ∀ loc : ParamLocation,
        namesAt d loc = (keptIn loc.text op.Parameters).map (fun p => p.Name) ++
            (keptIn loc.text (path.Parameters.filter
              (fun p => decide (p.Name ∉ op.Parameters.map (fun o => o.Name))))).map
              (fun p => p.Name) ∧
          (∀ n ∈ namesAt d loc, ∃ p ∈ combineParams op.Parameters path.Parameters,
            p.Name = n ∧ p.In = loc.text ∧ getExt p.Extensions ExtIgnore false = false) ∧
          (∀ n, n ∈ op.Parameters.map (fun o => o.Name) →
            (∀ o ∈ op.Parameters, o.Name = n →
              getExt o.Extensions ExtIgnore false = true) →
            n ∉ namesAt d loc) := by
  obtain ⟨d, hd⟩ := openapiOperation_returns lib method uriTemplate path op hres hresp
  obtain ⟨hp, hq, hh⟩ := openapiOperation_param_names lib method uriTemplate path op d hd
  refine ⟨d, hd, ?_⟩
  intro loc
  have hnames : namesAt d loc =
      (keptIn loc.text (combineParams op.Parameters path.Parameters)).map
        (fun p => p.Name) := by
    cases loc
    · exact hp
    · exact hq
    · exact hh
  refine ⟨?_, ?_, ?_⟩
  · rw [hnames, keptIn_combine_names]
  · intro n hn
    rw [hnames] at hn
    obtain ⟨p, hpk, hpn⟩ := List.mem_map.mp hn
    obtain ⟨hmem, hnot, hloc⟩ := keptIn_mem loc.text _ p hpk
    exact ⟨p, hmem, hpn, hloc, hnot⟩
  · intro n hdecl hign
    rw [hnames]
    exact keptIn_shadowed loc.text n op.Parameters path.Parameters hdecl hign

/-- Witness of C18: the operation declares `id` (query, flagged `x-cli-ignore`) and `limit`
(query), the path item declares `id` (path, not flagged); the outputs hold `limit` only. -/
theorem openapiOperation_ignored_parameters_witness :
    ∃ d, openapiOperation sampleLib "GET" { Path := "/users", RawQuery := "" }
        { Parameters := [plainParameter "id" "path" none], Extensions := none }
        (parameterOperation
          [plainParameter "id" "query" (some [("x-cli-ignore", .bool true)]),
            plainParameter "limit" "query" none]) = .returned d ∧
      d.PathParams.map (fun x => x.Name) = [] ∧
      d.QueryParams.map (fun x => x.Name) = ["limit"] ∧
      d.HeaderParams.map (fun x => x.Name) = [] ∧
      "id" ∉ d.PathParams.map (fun x => x.Name) ∧
      "id" ∉ d.QueryParams.map (fun x => x.Name) := by
  obtain ⟨d, hd, h⟩ := openapiOperation_ignored_parameters sampleLib "GET"
    { Path := "/users", RawQuery := "" }
    { Parameters := [plainParameter "id" "path" none], Extensions := none }
    (parameterOperation
      [plainParameter "id" "query" (some [("x-cli-ignore", .bool true)]),
        plainParameter "limit" "query" none])
    (by
      intro p hp _
      rw [combineParams_eq] at hp
      simp [parameterOperation, plainParameter] at hp
      rcases hp with rfl | rfl <;> exact ⟨_, rfl⟩)
    (fun h => by cases h)
  have hshadow : ∀ o ∈ (parameterOperation
      [plainParameter "id" "query" (some [("x-cli-ignore", .bool true)]),
        plainParameter "limit" "query" none]).Parameters,
      o.Name = "id" → getExt o.Extensions ExtIgnore false = true := by
    intro o ho hn
    simp [parameterOperation] at ho
    rcases ho with rfl | rfl
    · rfl
    · exact absurd hn (by decide)
  exact ⟨d, hd, (h .path).1.trans rfl, (h .query).1.trans rfl, (h .header).1.trans rfl,
    (h .path).2.2 "id" (by decide) hshadow, (h .query).2.2 "id" (by decide) hshadow⟩

end UpguardCli
